import Mathlib

/-!
Verification of the result-persistence protocol and paged-crawl control loop
of `src/scrape_sina_news.py` (class `SinaNewsCrawler`, functions
`process_news_item`, `scrape_page`, `run`, `save_results`, `main`).

The file content written by `save_results` is modelled as a `List Char`
(Python writes text in UTF-8; every byte position manipulated by the code,
namely the last two bytes `"\n]"`, is a one-byte ASCII character, so char
indexing and byte indexing agree on all reachable file states).

`json.dump(x, f, ensure_ascii=False, indent=2)` is modelled by `renderVal`
below, reproducing CPython's layout: with `indent=2` the item separator is
`",\n" ++ indent`, the key separator is `": "`, and `"`/`\`/control
characters are escaped (`ensure_ascii=False` leaves other characters as-is).
-/

/-! ### Characters, digits, escaping -/

def isWsChar (c : Char) : Bool :=
  c = ' ' || c = '\n' || c = '\t' || c = '\r'

def digitChar (d : Nat) : Char := Char.ofNat (48 + d)

def hexDigitChar (d : Nat) : Char :=
  if d < 10 then Char.ofNat (48 + d) else Char.ofNat (87 + d)

/-- Decimal digits of `n`, most significant first; `fuel`-driven recursion
(`fuel > n` suffices). -/
def renderNatAux : Nat → Nat → List Char
  | 0, _ => []
  | fuel + 1, n => if n < 10 then [digitChar n] else renderNatAux fuel (n / 10) ++ [digitChar (n % 10)]

def renderNat (n : Nat) : List Char := renderNatAux (n + 1) n

/-- The escape of one character inside a JSON string literal, as produced by
CPython's `json` module with `ensure_ascii=False`. -/
def escapeChar (c : Char) : List Char :=
  if c = '"' then ['\\', '"']
  else if c = '\\' then ['\\', '\\']
  else if c = '\n' then ['\\', 'n']
  else if c = '\r' then ['\\', 'r']
  else if c = '\t' then ['\\', 't']
  else if c.toNat = 8 then ['\\', 'b']
  else if c.toNat = 12 then ['\\', 'f']
  else if c.toNat < 32 then ['\\', 'u', '0', '0', hexDigitChar (c.toNat / 16), hexDigitChar (c.toNat % 16)]
  else [c]

def escapeList : List Char → List Char
  | [] => []
  | c :: cs => escapeChar c ++ escapeList cs

def indentChars (d : Nat) : List Char := List.replicate (2 * d) ' '

/-! ### The JSON value type and the `json.dump(indent=2)` renderer -/

inductive Json where
  | str : String → Json
  | num : Nat → Json
  | arr : List Json → Json
  | obj : List (String × Json) → Json

-- A size measure used as parser fuel.
mutual

def Json.size : Json → Nat
  | .str _ => 1
  | .num _ => 1
  | .arr xs => 1 + Json.sizeL xs
  | .obj fs => 1 + Json.sizeF fs

def Json.sizeL : List Json → Nat
  | [] => 0
  | x :: xs => 1 + Json.size x + Json.sizeL xs

def Json.sizeF : List (String × Json) → Nat
  | [] => 0
  | (_, v) :: fs => 1 + Json.size v + Json.sizeF fs

end

def renderKey (k : String) : List Char := '"' :: (escapeList k.data ++ ['"'])

-- `renderVal v d` is the text `json.dump` produces for `v` at nesting
-- depth `d` (the depth only influences the indentation of nested lines).
mutual

def renderVal : Json → Nat → List Char
  | .str s, _ => '"' :: (escapeList s.data ++ ['"'])
  | .num n, _ => renderNat n
  | .arr [], _ => ['[', ']']
  | .arr (x :: xs), d => '[' :: '\n' :: (renderItems (x :: xs) (d + 1) ++ '\n' :: (indentChars d ++ [']']))
  | .obj [], _ => ['{', '}']
  | .obj (kv :: kvs), d => '{' :: '\n' :: (renderFields (kv :: kvs) (d + 1) ++ '\n' :: (indentChars d ++ ['}']))

def renderItems : List Json → Nat → List Char
  | [], _ => []
  | [x], d => indentChars d ++ renderVal x d
  | x :: y :: xs, d => indentChars d ++ (renderVal x d ++ ',' :: '\n' :: renderItems (y :: xs) d)

def renderFields : List (String × Json) → Nat → List Char
  | [], _ => []
  | [(k, v)], d => indentChars d ++ (renderKey k ++ ':' :: ' ' :: renderVal v d)
  | (k, v) :: kv :: kvs, d =>
      indentChars d ++ (renderKey k ++ ':' :: ' ' :: (renderVal v d ++ ',' :: '\n' :: renderFields (kv :: kvs) d))

end

/-! ### News records (`self.results` entries, lines 45–50) -/

structure NewsRecord where
  title : String
  summary : String
  url : String
  page : Nat
deriving DecidableEq

/-- The dict literal appended at lines 45–50 keeps Python's insertion order:
`title`, `summary`, `url`, `page`. -/
def NewsRecord.toJson (r : NewsRecord) : Json :=
  .obj [("title", .str r.title), ("summary", .str r.summary), ("url", .str r.url), ("page", .num r.page)]

def batchJson (b : List NewsRecord) : Json := .arr (b.map NewsRecord.toJson)

/-- `json.dump(self.results, f, ensure_ascii=False, indent=2)` at lines
150/161: the batch list is serialized as its own top-level JSON array. -/
def dumpBatch (b : List NewsRecord) : List Char := renderVal (batchJson b) 0

/-! ### The result store: `save_results` (lines 134–167)

The store state is the output file: `none` = no file exists (and
`self.filename` is unset), `some c` = the file exists with content `c`.
-/

/-- `save_results` (lines 134–167).  `incremental` is the keyword argument;
every call in `run` passes `incremental=True`.
* empty `self.results` → early return, nothing touched (lines 136–138);
* no file yet → mode `'w'`, write `'[\n'`, the batch dump, `'\n]'`;
* file exists, empty → the `getsize == 0` branch writes the same full text;
* file exists, nonempty → seek to end minus 2 bytes (the `"\n]"` suffix),
  truncate, then write `',\n'`, the batch dump, `'\n]'` (lines 153–162). -/
def save_results (incremental : Bool) (results : List NewsRecord) (file : Option (List Char)) :
    Option (List Char) :=
  if results = [] then file
  else
    let fresh := '[' :: '\n' :: (dumpBatch results ++ ['\n', ']'])
    match file with
    | none => some fresh
    | some c =>
        if incremental then
          if c = [] then some fresh
          else some (c.take (c.length - 2) ++ ',' :: '\n' :: (dumpBatch results ++ ['\n', ']']))
        else some fresh

/-- A sequence of incremental `save_results` calls, as issued by the crawl
loop (one call per page whose batch is nonempty; `run` skips the call for an
empty batch, and `save_results` itself would also be a no-op there). -/
def runSaves (batches : List (List NewsRecord)) (file : Option (List Char)) : Option (List Char) :=
  batches.foldl (fun f b => save_results true b f) file

/-- `content.replace(',\n]', '\n]')` from `main` (line 185): Python's
`str.replace` scans left to right; whenever the next three characters are
`",\n]"` it emits `"\n]"` and continues after them (the replacement is not
rescanned), otherwise it copies one character. -/
def fixTrailing : List Char → List Char
  | [] => []
  | [c] => [c]
  | [c1, c2] => [c1, c2]
  | c1 :: c2 :: c3 :: rest =>
    if c1 = ',' ∧ c2 = '\n' ∧ c3 = ']' then '\n' :: ']' :: fixTrailing rest
    else c1 :: fixTrailing (c2 :: c3 :: rest)

/-- Canonical file content after non-empty batches `bs` (`bs ≠ []`):
`'[\n' ++ dump b₁ ++ ',\n' ++ dump b₂ ++ ⋯ ++ '\n]'`. -/
def joinSep (sep : List Char) : List (List Char) → List Char
  | [] => []
  | [x] => x
  | x :: y :: t => x ++ sep ++ joinSep sep (y :: t)

def canonicalDoc (bs : List (List NewsRecord)) : List Char :=
  '[' :: '\n' :: (joinSep [',', '\n'] (bs.map dumpBatch) ++ ['\n', ']'])

/-! ### A JSON parser

"The document parses as value `v`" is formalised as `parseJson content =
some v`.  The parser below accepts the JSON fragment the program can emit
(strings, non-negative integers, arrays, objects) with arbitrary
interleaved whitespace, and requires the input to be exhausted after the
top-level value, like `json.loads`.
-/

def skipWs : List Char → List Char
  | [] => []
  | c :: cs => if isWsChar c then skipWs cs else c :: cs

/-- Greedily consume decimal digits, extending accumulator `acc`. -/
def parseDigits : List Char → Nat → Nat × List Char
  | [], acc => (acc, [])
  | c :: r, acc => if c.isDigit then parseDigits r (acc * 10 + (c.toNat - 48)) else (acc, c :: r)

def hexVal (c : Char) : Option Nat :=
  if '0' ≤ c ∧ c ≤ '9' then some (c.toNat - 48)
  else if 'a' ≤ c ∧ c ≤ 'f' then some (c.toNat - 87)
  else if 'A' ≤ c ∧ c ≤ 'F' then some (c.toNat - 55)
  else none

def unescapeChar (e : Char) : Option Char :=
  if e = '"' then some '"'
  else if e = '\\' then some '\\'
  else if e = '/' then some '/'
  else if e = 'n' then some '\n'
  else if e = 'r' then some '\r'
  else if e = 't' then some '\t'
  else if e = 'b' then some (Char.ofNat 8)
  else if e = 'f' then some (Char.ofNat 12)
  else none

/-- Parse the body of a string literal (everything after the opening `"`),
returning the decoded characters and the input after the closing `"`.
`fuel` only bounds the recursion depth; each step consumes at least one
input character, so any `fuel` larger than the count of decoded characters
is enough. -/
def parseStrBody : Nat → List Char → Option (List Char × List Char)
  | 0, _ => none
  | _ + 1, [] => none
  | fuel + 1, c :: r =>
    if c = '"' then some ([], r)
    else if c = '\\' then
      match r with
      | [] => none
      | e :: r2 =>
        if e = 'u' then
          match r2 with
          | h1 :: h2 :: h3 :: h4 :: r3 =>
            match hexVal h1, hexVal h2, hexVal h3, hexVal h4 with
            | some a, some b, some c2, some d =>
              match parseStrBody fuel r3 with
              | some (s, rest) => some (Char.ofNat (((a * 16 + b) * 16 + c2) * 16 + d) :: s, rest)
              | none => none
            | _, _, _, _ => none
          | _ => none
        else
          match unescapeChar e with
          | some u =>
            match parseStrBody fuel r2 with
            | some (s, rest) => some (u :: s, rest)
            | none => none
          | none => none
    else
      match parseStrBody fuel r with
      | some (s, rest) => some (c :: s, rest)
      | none => none

mutual

def parseVal : Nat → List Char → Option (Json × List Char)
  | 0, _ => none
  | fuel + 1, cs =>
    match skipWs cs with
    | [] => none
    | c :: r =>
      if c = '"' then
        match parseStrBody (r.length + 1) r with
        | some (s, rest) => some (.str (String.mk s), rest)
        | none => none
      else if c = '[' then
        match skipWs r with
        | ']' :: r2 => some (.arr [], r2)
        | r2 =>
          match parseItems fuel r2 with
          | some (vs, rest) => some (.arr vs, rest)
          | none => none
      else if c = '{' then
        match skipWs r with
        | '}' :: r2 => some (.obj [], r2)
        | r2 =>
          match parseFields fuel r2 with
          | some (fs, rest) => some (.obj fs, rest)
          | none => none
      else if c.isDigit then
        let p := parseDigits (c :: r) 0
        some (.num p.1, p.2)
      else none

def parseItems : Nat → List Char → Option (List Json × List Char)
  | 0, _ => none
  | fuel + 1, cs =>
    match parseVal fuel cs with
    | none => none
    | some (v, r) =>
      match skipWs r with
      | ',' :: r2 =>
        match parseItems fuel r2 with
        | none => none
        | some (vs, r3) => some (v :: vs, r3)
      | ']' :: r2 => some ([v], r2)
      | _ => none

def parseFields : Nat → List Char → Option (List (String × Json) × List Char)
  | 0, _ => none
  | fuel + 1, cs =>
    match skipWs cs with
    | '"' :: r =>
      match parseStrBody (r.length + 1) r with
      | none => none
      | some (k, r1) =>
        match skipWs r1 with
        | ':' :: r2 =>
          match parseVal fuel r2 with
          | none => none
          | some (v, r3) =>
            match skipWs r3 with
            | ',' :: r4 =>
              match parseFields fuel r4 with
              | none => none
              | some (fs, r5) => some ((String.mk k, v) :: fs, r5)
            | '}' :: r4 => some ([(String.mk k, v)], r4)
            | _ => none
        | _ => none
    | _ => none

end

/-- Top-level parse: one value, then only whitespace until end of input. -/
def parseJson (content : List Char) : Option Json :=
  match parseVal (content.length + 1) content with
  | some (v, rest) => if skipWs rest = [] then some v else none
  | none => none

/-! ### The crawl controller (`process_news_item`, `scrape_page`, `run`, `main`)

The browser/DOM collaborator is modelled as input data: what each
`query_selector`/`text_content`/`get_attribute` call would yield for every
candidate item, whether each page's list-ready wait succeeds, and how each
pagination attempt ends.  Python exceptions that the code catches are part
of this data; the one exception the code does not catch (a failure of the
initial navigation block, lines 92–96) is modelled with `Except`, whose
`error` payload records the file state at raise time.
-/

/-- One candidate item (`.news-list li` element) as seen by
`process_news_item` (lines 20–54): either some awaited call raises (caught
at line 53, nothing appended), or extraction yields the element/attribute
data.  `titleText`/`summaryText`/`href` are `none` when the corresponding
Playwright call returns `None`. -/
inductive ItemOutcome where
  | errored : ItemOutcome
  | extracted (hasTitle : Bool) (titleText : Option String) (hasSummary : Bool)
      (summaryText : Option String) (href : Option String) : ItemOutcome
deriving DecidableEq

/-- `x.strip() if x else ""` with `x : Optional[str]` (lines 28/33).
Python's `str.strip()` is modelled by `String.trim` (both drop

leading/trailing whitespace; the exact whitespace alphabet is irrelevant to
every claim below). -/
def pyStripOpt : Option String → String
  | none => ""
  | some s => if s = "" then "" else s.trim

/-- Python's substring test `pat in s` on strings, as a scan over the
character list: some (possibly empty) contiguous slice of `s` equals
`pat`. -/
def hasSubstr (pat : List Char) : List Char → Bool
  | [] => pat.isEmpty
  | c :: s => pat.isPrefixOf (c :: s) || hasSubstr pat s

/-- The keyword filter at line 41: the item is *kept* unless
`self.keywords` is non-empty and no keyword occurs in the title or the
summary (`kw in s` is a literal, case-sensitive substring test). -/
def keptByFilter (kws : List String) (title summary : String) : Bool :=
  !(!kws.isEmpty && !(kws.any fun kw => hasSubstr kw.data title.data || hasSubstr kw.data summary.data))

/-- `process_news_item` (lines 20–54) as a function from the item's
extraction outcome to the record appended to `self.results` (if any). -/
def process_news_item (kws : List String) (pageNum : Nat) : ItemOutcome → Option NewsRecord
  | .errored => none
  | .extracted hasTitle titleText hasSummary summaryText href =>
    if !hasTitle then none
    else
      let title := pyStripOpt titleText
      let summary := if hasSummary then pyStripOpt summaryText else ""
      match href with
      | none => none
      | some link =>
        if link = "" then none
        else if keptByFilter kws title summary then
          some { title := title, summary := summary, url := link, page := pageNum }
        else none

/-- Outcome of `scrape_page` on one page: the `.news-list` wait times out
(line 71, returns `False`), some other exception occurs (line 74, returns
`False`), or the item list is extracted and processed (returns `True`). -/
inductive PageOutcome where
  | timeout : PageOutcome
  | error : PageOutcome
  | items : List ItemOutcome → PageOutcome
deriving DecidableEq

/-- Outcome of the pagination block (lines 113–128): `a.next` button absent,
click/wait timeout, other exception, or success. -/
inductive PaginationOutcome where
  | noButton : PaginationOutcome
  | timeout : PaginationOutcome
  | failError : PaginationOutcome
  | ok : PaginationOutcome
deriving DecidableEq

/-- The external collaborator's behaviour for a whole run. `initOk` covers
lines 92–96 (`goto`, `networkidle` wait, `.news-item` wait); `pages k` is
what `scrape_page` encounters the `k`-th time the loop body runs; the item
order in `pages k` is the order the records end up in `self.results`. -/
structure Env where
  initOk : Bool
  pages : Nat → PageOutcome
  pagination : Nat → PaginationOutcome

/-- Did `scrape_page` return `True` on page `k`? -/
def pageSuccess (env : Env) (k : Nat) : Bool :=
  match env.pages k with
  | .items _ => true
  | _ => false

/-- The records appended to `self.results` while processing page `k`
(empty when the page failed: the loop breaks before saving). -/
def pageBatch (kws : List String) (env : Env) (k : Nat) : List NewsRecord :=
  match env.pages k with
  | .items l => l.filterMap (process_news_item kws k)
  | _ => []

/-- The `while current_page <= self.max_pages` loop of `run` (lines
98–130), with `fuel` bounding the number of iterations (the caller passes
`maxPages + 1`, which the loop can never exhaust since every iteration
either breaks or increments `currentPage ≤ maxPages`).  Returns the final
file state and the number of pages whose scrape succeeded. -/
def crawlLoop (kws : List String) (maxPages : Nat) (env : Env) :
    Nat → Nat → Option (List Char) → Nat → Option (List Char) × Nat
  | 0, _, file, done => (file, done)
  | fuel + 1, currentPage, file, done =>
    if currentPage ≤ maxPages then
      if pageSuccess env currentPage then
        let batch := pageBatch kws env currentPage
        -- lines 106–110: `if self.results: self.save_results(incremental=True)`
        let file' := if batch.isEmpty then file else save_results true batch file
        if currentPage < maxPages then
          match env.pagination currentPage with
          | .ok => crawlLoop kws maxPages env fuel (currentPage + 1) file' (done + 1)
          | _ => (file', done + 1)    -- lines 121–128: break
        else (file', done + 1)        -- line 130: break
      else (file, done)               -- lines 102–103: break
    else (file, done)

/-- `SinaNewsCrawler.run` (lines 78–132): if the initial navigation block
fails, the exception escapes `run` (and `asyncio.run`) with no file created;
otherwise the crawl loop runs to a graceful stop. -/
def SinaRun (kws : List String) (maxPages : Nat) (env : Env) :
    Except (Option (List Char)) (Option (List Char) × Nat) :=
  if env.initOk then .ok (crawlLoop kws maxPages env (maxPages + 1) 1 none 0) else .error none

/-- `main` (lines 169–186): run the crawler, then — only if
`crawler.filename` was ever set, i.e. a file exists — rewrite the file with
`content.replace(',\n]', '\n]')`.  `.ok` is exit code 0; `.error` is the
unhandled exception (non-zero exit), with the file state it leaves behind. -/
def mainRun (kws : List String) (maxPages : Nat) (env : Env) :
    Except (Option (List Char)) (Option (List Char) × Nat) :=
  match SinaRun kws maxPages env with
  | .error f => .error f
  | .ok (file, n) => .ok (file.map fixTrailing, n)

/-- The file state after the per-page save step (lines 106–110). -/
def savedFile (kws : List String) (env : Env) (cur : Nat) (file : Option (List Char)) :
    Option (List Char) :=
  if (pageBatch kws env cur).isEmpty then file else save_results true (pageBatch kws env cur) file

/-! ### Concrete inputs used by witnesses and counterexamples -/

/-- An item whose `<a>` element exists but has empty text: `text_content()`
returns `""`. -/
def itemNoTitleText : ItemOutcome :=
  .extracted true (some "") true (some "") (some "u")

def recNoTitle : NewsRecord := { title := "", summary := "", url := "u", page := 1 }

def envNoTitle : Env :=
  { initOk := true, pages := fun _ => .items [itemNoTitleText], pagination := fun _ => .noButton }

def envTimeoutFirst : Env :=
  { initOk := true, pages := fun _ => .timeout, pagination := fun _ => .ok }

def envEmptyPages : Env :=
  { initOk := true, pages := fun _ => .items [], pagination := fun _ => .noButton }

def envInitFail : Env :=
  { initOk := false, pages := fun _ => .items [], pagination := fun _ => .ok }

def envOneErrored : Env :=
  { initOk := true, pages := fun _ => .items [ItemOutcome.errored], pagination := fun _ => .noButton }

/-- The batches that actually cause a write (non-empty ones). -/
def nonEmptyBatches (bs : List (List NewsRecord)) : List (List NewsRecord) :=
  bs.filter (fun b => !b.isEmpty)

/-- The next character, if any, is not a decimal digit (used to delimit
number parsing). -/
def headNotDigit : List Char → Prop
  | [] => True
  | c :: _ => c.isDigit = false

def recSample : NewsRecord := { title := "t", summary := "s", url := "u", page := 1 }

def recSample2 : NewsRecord := { title := "t2", summary := "s2", url := "u2", page := 2 }

/-! ### Substring occurrence and the keyword filter -/

/-- `pat` occurs as a contiguous slice of `s`. -/
def SubOcc (pat s : List Char) : Prop := ∃ p t, s = p ++ pat ++ t

/-- `s` contains no occurrence of the three-character pattern `",\n]"` (the
pattern `main`'s cleanup searches for). -/
def NoCNB (s : List Char) : Prop := ¬ SubOcc [',', '\n', ']'] s

theorem isPrefixOf_iff_exists (pat s : List Char) :
    pat.isPrefixOf s = true ↔ ∃ t, s = pat ++ t := by
  rw [List.isPrefixOf_iff_prefix]
  constructor
  · rintro ⟨t, rfl⟩; exact ⟨t, rfl⟩
  · rintro ⟨t, rfl⟩; exact ⟨t, rfl⟩

theorem hasSubstr_iff (pat s : List Char) : hasSubstr pat s = true ↔ SubOcc pat s := by
  induction s with
  | nil =>
    simp only [hasSubstr, List.isEmpty_iff, SubOcc]
    constructor
    · rintro rfl; exact ⟨[], [], rfl⟩
    · rintro ⟨p, t, h⟩
      rcases List.append_eq_nil.mp h.symm with ⟨h1, h2⟩
      rcases List.append_eq_nil.mp h1 with ⟨_, h3⟩
      exact h3
  | cons c s ih =>
    simp only [hasSubstr, Bool.or_eq_true, isPrefixOf_iff_exists, ih]
    constructor
    · rintro (⟨t, h⟩ | ⟨p, t, h⟩)
      · exact ⟨[], t, by simpa using h⟩
      · exact ⟨c :: p, t, by simp [h]⟩
    · rintro ⟨p, t, h⟩
      cases p with
      | nil => exact Or.inl ⟨t, by simpa using h⟩
      | cons x p =>
        right
        rcases List.cons_eq_cons.mp h with ⟨-, h2⟩
        exact ⟨p, t, h2⟩

/-- The filter keeps an item iff the keyword set is empty or some keyword is
a substring of the (stripped) title or summary. -/
theorem keptByFilter_iff (kws : List String) (t s : String) :
    keptByFilter kws t s = true ↔
      kws = [] ∨ ∃ kw ∈ kws, SubOcc kw.data t.data ∨ SubOcc kw.data s.data := by
  unfold keptByFilter
  rcases eq_or_ne kws [] with rfl | hne
  · simp
  · have hE : kws.isEmpty = false := by
      cases kws with
      | nil => exact absurd rfl hne
      | cons a l => rfl
    simp [hE, hne, List.any_eq_true, hasSubstr_iff]

/-! ### Facts about `process_news_item` -/

/-- Anything `process_news_item` appends has a non-empty url (the `if not
link` guard), carries the current page number, and passed the keyword
filter.  (No such guard exists for the title: only the `<a>` *element* is
checked, not the text.) -/
theorem process_some (kws : List String) (pn : Nat) (it : ItemOutcome) (r : NewsRecord)
    (h : process_news_item kws pn it = some r) :
    r.url ≠ "" ∧ r.page = pn ∧ keptByFilter kws r.title r.summary = true := by
  cases it with
  | errored => simp [process_news_item] at h
  | extracted hT tT hS sT href =>
    simp only [process_news_item] at h
    by_cases hhT : (!hT) = true
    · rw [if_pos hhT] at h; exact absurd h (by simp)
    · rw [if_neg hhT] at h
      cases href with
      | none => exact absurd h (by simp)
      | some link =>
        simp only at h
        by_cases hlink : link = ""
        · rw [if_pos hlink] at h; exact absurd h (by simp)
        · rw [if_neg hlink] at h
          by_cases hkept :
              keptByFilter kws (pyStripOpt tT) (if hS then pyStripOpt sT else "") = true
          · rw [if_pos hkept] at h
            rcases Option.some.inj h with rfl
            exact ⟨hlink, rfl, hkept⟩
          · rw [if_neg hkept] at h; exact absurd h (by simp)

theorem mem_pageBatch (kws : List String) (env : Env) (k : Nat) (r : NewsRecord)
    (h : r ∈ pageBatch kws env k) :
    ∃ it, process_news_item kws k it = some r := by
  unfold pageBatch at h
  split at h
  · rcases List.mem_filterMap.mp h with ⟨it, -, hit⟩
    exact ⟨it, hit⟩
  · simp at h

/-! ### Crawl-loop step facts -/

/-- The loop result only depends on the per-page success flags, batches and
pagination outcomes. -/
theorem crawlLoop_congr (kws : List String) (maxPages : Nat) (env env' : Env)
    (hs : ∀ k, pageSuccess env k = pageSuccess env' k)
    (hb : ∀ k, pageBatch kws env k = pageBatch kws env' k)
    (hp : ∀ k, env.pagination k = env'.pagination k) :
    ∀ fuel cur file done,
      crawlLoop kws maxPages env fuel cur file done =
        crawlLoop kws maxPages env' fuel cur file done := by
  intro fuel
  induction fuel with
  | zero => intro cur file done; rfl
  | succ f ih =>
    intro cur file done
    simp only [crawlLoop]
    rw [hs cur, hb cur, hp cur]
    by_cases h1 : cur ≤ maxPages
    · simp only [h1, if_true]
      cases pageSuccess env' cur
      · rfl
      · simp only
        by_cases h2 : cur < maxPages
        · simp only [h2, if_true]
          cases env'.pagination cur <;> simp only [ih]
        · simp only [h2, if_false]
    · simp only [h1, if_false]

/-! ### Claims C2, C3, C5 -/

/-- Claim C2: for every keyword set `K` and candidate item (title/summary
strings as they reach line 41), the item matches iff `K` is empty or some
keyword of `K` is a literal, case-sensitive substring of the title or of
the summary; and every record `process_news_item` emits passed this
filter. -/
theorem claim_C2 :
    (∀ (kws : List String) (t s : String),
        keptByFilter kws t s = true ↔
          kws = [] ∨ ∃ kw ∈ kws, SubOcc kw.data t.data ∨ SubOcc kw.data s.data)
    ∧ ∀ (kws : List String) (pn : Nat) (it : ItemOutcome) (r : NewsRecord),
        process_news_item kws pn it = some r → keptByFilter kws r.title r.summary = true :=
  ⟨keptByFilter_iff, fun kws pn it r h => (process_some kws pn it r h).2.2⟩

theorem claim_C2_witness :
    process_news_item [] 2 itemNoTitleText = some { title := "", summary := "", url := "u", page := 2 }
    ∧ keptByFilter [] "" "" = true :=
  ⟨rfl, claim_C2.2 [] 2 itemNoTitleText { title := "", summary := "", url := "u", page := 2 } rfl⟩

/-- Claim C3 is wrong about titles: an item whose `<a>` element exists but
whose text is empty passes all guards (only the element and the href are
checked), so a record with an empty `title` is persisted: with no keywords
it reaches `self.results` and `save_results` writes it out. -/
theorem claim_C3_counterexample :
    process_news_item [] 1 itemNoTitleText = some recNoTitle
    ∧ recNoTitle.title = ""
    ∧ pageBatch [] envNoTitle 1 = [recNoTitle]
    ∧ SinaRun [] 1 envNoTitle = .ok (some (canonicalDoc [[recNoTitle]]), 1) :=
  ⟨rfl, rfl, rfl, rfl⟩

/-- Claim C3 (amended): every record produced while processing page `k`
(pages are numbered from 1 in `run`) has a non-empty `url`, `page = k ≥ 1`,
and passed the keyword filter — but its `title` may be the empty string,
since only the title *element*'s existence is checked. -/
theorem claim_C3_amended :
    ∀ (kws : List String) (env : Env) (k : Nat) (r : NewsRecord),
      1 ≤ k → r ∈ pageBatch kws env k →
      r.url ≠ "" ∧ 1 ≤ r.page ∧ keptByFilter kws r.title r.summary = true := by
  intro kws env k r hk hr
  rcases mem_pageBatch kws env k r hr with ⟨it, hit⟩
  rcases process_some kws k it r hit with ⟨h1, h2, h3⟩
  exact ⟨h1, h2 ▸ hk, h3⟩

theorem claim_C3_witness :
    (1 ≤ 1 ∧ recNoTitle ∈ pageBatch [] envNoTitle 1)
    ∧ (recNoTitle.url ≠ "" ∧ 1 ≤ recNoTitle.page
        ∧ keptByFilter [] recNoTitle.title recNoTitle.summary = true) :=
  ⟨⟨by decide, by decide⟩, claim_C3_amended [] envNoTitle 1 recNoTitle (by decide) (by decide)⟩

/-- Claim C5: `save_results` with an empty batch returns before touching
the filesystem (lines 136–138): the file state — content and existence —
is unchanged, and no file (nor filename) is created when none existed. -/
theorem claim_C5 :
    ∀ (incremental : Bool) (file : Option (List Char)),
      save_results incremental [] file = file := by
  intro incremental file
  rfl

/-! ### Claims C6, C7, C8, C9 -/

/-- Claim C6: with a successful initial navigation, `max_pages = 0` makes
the `while` condition `1 <= 0` fail immediately, and a timeout of the first
page's `.news-list` wait makes `scrape_page` return `False` and the loop
break; either way no page is processed, no file is created, and `main`
completes normally (exit code 0). -/
theorem claim_C6 :
    ∀ (kws : List String) (env : Env), env.initOk = true →
      mainRun kws 0 env = .ok (none, 0)
      ∧ ∀ maxPages, env.pages 1 = .timeout → mainRun kws maxPages env = .ok (none, 0) := by
  intro kws env h
  constructor
  · simp [mainRun, SinaRun, h, crawlLoop]
  · intro maxPages hto
    have hsucc : pageSuccess env 1 = false := by simp [pageSuccess, hto]
    cases maxPages with
    | zero => simp [mainRun, SinaRun, h, crawlLoop]
    | succ m =>
      simp [mainRun, SinaRun, h, crawlLoop, hsucc, Nat.succ_le_succ (Nat.zero_le m)]

theorem claim_C6_witness :
    envTimeoutFirst.initOk = true ∧ envTimeoutFirst.pages 1 = .timeout
    ∧ mainRun ["kw"] 0 envTimeoutFirst = .ok (none, 0)
    ∧ mainRun ["kw"] 3 envTimeoutFirst = .ok (none, 0) :=
  ⟨rfl, rfl, (claim_C6 ["kw"] envTimeoutFirst rfl).1,
    (claim_C6 ["kw"] envTimeoutFirst rfl).2 3 rfl⟩

/-- Claim C7: on a successfully scraped page, after the save step the loop
(1) terminates returning the saved file when the page limit is reached,
(2) terminates returning the saved file when the next-page button is
missing or pagination times out or errors — all without an exception
(`SinaRun` yields `.ok` whenever the initial navigation succeeded) and
without touching any later page — and (3) otherwise continues with the
incremented page index. -/
theorem claim_C7 :
    ∀ (kws : List String) (env : Env) (maxPages fuel cur done : Nat)
      (file : Option (List Char)) (l : List ItemOutcome),
      env.pages cur = .items l →
      (env.initOk = true → ∃ out, SinaRun kws maxPages env = .ok out)
      ∧ (cur = maxPages →
          crawlLoop kws maxPages env (fuel + 1) cur file done =
            (savedFile kws env cur file, done + 1))
      ∧ (cur < maxPages → env.pagination cur ≠ .ok →
          crawlLoop kws maxPages env (fuel + 1) cur file done =
            (savedFile kws env cur file, done + 1))
      ∧ (cur < maxPages → env.pagination cur = .ok →
          crawlLoop kws maxPages env (fuel + 1) cur file done =
            crawlLoop kws maxPages env fuel (cur + 1) (savedFile kws env cur file) (done + 1)) := by
  intro kws env maxPages fuel cur done file l hl
  have hsucc : pageSuccess env cur = true := by simp [pageSuccess, hl]
  refine ⟨fun h => ⟨crawlLoop kws maxPages env (maxPages + 1) 1 none 0, by simp [SinaRun, h]⟩,
    ?_, ?_, ?_⟩
  · intro he
    subst he
    simp [crawlLoop, hsucc, savedFile, Nat.lt_irrefl]
  · intro hlt hne
    have hle : cur ≤ maxPages := Nat.le_of_lt hlt
    cases hp : env.pagination cur with
    | ok => exact absurd hp hne
    | noButton => simp [crawlLoop, hsucc, savedFile, hle, hlt, hp]
    | timeout => simp [crawlLoop, hsucc, savedFile, hle, hlt, hp]
    | failError => simp [crawlLoop, hsucc, savedFile, hle, hlt, hp]
  · intro hlt hp
    have hle : cur ≤ maxPages := Nat.le_of_lt hlt
    simp [crawlLoop, hsucc, savedFile, hle, hlt, hp]

theorem claim_C7_witness :
    envEmptyPages.pages 1 = .items [] ∧ envEmptyPages.initOk = true
    ∧ (1 : Nat) < 5 ∧ envEmptyPages.pagination 1 ≠ .ok
    ∧ (∃ out, SinaRun [] 5 envEmptyPages = .ok out)
    ∧ crawlLoop [] 5 envEmptyPages 5 1 none 0 = (savedFile [] envEmptyPages 1 none, 1) :=
  ⟨rfl, rfl, by decide, by decide,
    (claim_C7 [] envEmptyPages 5 4 1 0 none [] rfl).1 rfl,
    (claim_C7 [] envEmptyPages 5 4 1 0 none [] rfl).2.2.1 (by decide) (by decide)⟩

/-- Claim C8: a failure of the initial navigation block (lines 92–96) is
the sole hard abort: it escapes `run` and `asyncio.run` as an unhandled
exception (non-zero outcome) before any save, so no document exists; with
a successful initial navigation the run always completes with exit code 0
(every later failure is caught and absorbed into a graceful stop). -/
theorem claim_C8 :
    ∀ (kws : List String) (maxPages : Nat) (env : Env),
      (env.initOk = false → mainRun kws maxPages env = .error none)
      ∧ (env.initOk = true → ∃ out, mainRun kws maxPages env = .ok out) := by
  intro kws maxPages env
  constructor
  · intro h
    simp [mainRun, SinaRun, h]
  · intro h
    exact ⟨(Option.map fixTrailing (crawlLoop kws maxPages env (maxPages + 1) 1 none 0).1,
      (crawlLoop kws maxPages env (maxPages + 1) 1 none 0).2), by simp [mainRun, SinaRun, h]⟩

theorem claim_C8_witness :
    envInitFail.initOk = false ∧ mainRun ["kw"] 5 envInitFail = .error none
    ∧ envEmptyPages.initOk = true ∧ ∃ out, mainRun ["kw"] 5 envEmptyPages = .ok out :=
  ⟨rfl, (claim_C8 ["kw"] 5 envInitFail).1 rfl, rfl, (claim_C8 ["kw"] 5 envEmptyPages).2 rfl⟩

/-- Claim C9: an exception inside `process_news_item` is caught at line 53:
the failing item contributes no record, the other items of the page are
processed exactly as if the failing item were absent, and the whole run's
outcome is unchanged. -/
theorem claim_C9 :
    ∀ (kws : List String) (pn : Nat) (l1 l2 : List ItemOutcome),
      process_news_item kws pn .errored = none
      ∧ (l1 ++ .errored :: l2).filterMap (process_news_item kws pn) =
          (l1 ++ l2).filterMap (process_news_item kws pn)
      ∧ ∀ (env : Env) (maxPages j : Nat),
          env.pages j = .items (l1 ++ .errored :: l2) →
          SinaRun kws maxPages env =
            SinaRun kws maxPages
              { env with pages := fun k => if k = j then .items (l1 ++ l2) else env.pages k } := by
  intro kws pn l1 l2
  refine ⟨rfl, ?_, ?_⟩
  · simp [List.filterMap_append, List.filterMap_cons, process_news_item]
  · intro env maxPages j hj
    have hs : ∀ k, pageSuccess env k =
        pageSuccess { env with pages := fun k => if k = j then .items (l1 ++ l2) else env.pages k } k := by
      intro k
      by_cases hk : k = j
      · subst hk
        simp [pageSuccess, hj]
      · simp [pageSuccess, hk]
    have hb : ∀ k, pageBatch kws env k =
        pageBatch kws { env with pages := fun k => if k = j then .items (l1 ++ l2) else env.pages k } k := by
      intro k
      by_cases hk : k = j
      · subst hk
        simp [pageBatch, hj, List.filterMap_append, List.filterMap_cons, process_news_item]
      · simp [pageBatch, hk]
    have hcl := crawlLoop_congr kws maxPages env _ hs hb (fun k => rfl)
    simp only [SinaRun]
    cases hio : env.initOk with
    | false => simp [hio]
    | true => simp [hio, hcl (maxPages + 1) 1 none 0]

theorem claim_C9_witness :
    envOneErrored.pages 1 = .items ([] ++ .errored :: [])
    ∧ SinaRun ["kw"] 2 envOneErrored =
        SinaRun ["kw"] 2
          { envOneErrored with
            pages := fun k => if k = 1 then .items ([] ++ ([] : List ItemOutcome)) else envOneErrored.pages k } :=
  ⟨rfl, (claim_C9 ["kw"] 1 [] []).2.2 envOneErrored 2 1 rfl⟩

/-! ### Store characterization: what is on disk after a run of saves -/

theorem save_results_empty (incremental : Bool) (file : Option (List Char)) :
    save_results incremental [] file = file := rfl

theorem take_append_two (a : List Char) (x y : Char) :
    (a ++ [x, y]).take ((a ++ [x, y]).length - 2) = a := by
  have h : (a ++ [x, y]).length - 2 = a.length := by
    simp [List.length_append]
  rw [h]
  exact List.take_left a [x, y]

theorem canonicalDoc_eq_append (bs : List (List NewsRecord)) :
    canonicalDoc bs = ('[' :: '\n' :: joinSep [',', '\n'] (bs.map dumpBatch)) ++ ['\n', ']'] := by
  simp [canonicalDoc]

theorem joinSep_concat (sep : List Char) (l : List (List Char)) (x : List Char) (h : l ≠ []) :
    joinSep sep (l ++ [x]) = joinSep sep l ++ (sep ++ x) := by
  induction l with
  | nil => exact absurd rfl h
  | cons a t ih =>
    cases t with
    | nil => simp [joinSep]
    | cons b t2 =>
      have : joinSep sep ((a :: b :: t2) ++ [x]) = a ++ sep ++ joinSep sep ((b :: t2) ++ [x]) := rfl
      rw [this, ih (by simp), joinSep]
      simp [List.append_assoc]

theorem canonicalDoc_ne_nil (bs : List (List NewsRecord)) : canonicalDoc bs ≠ [] := by
  simp [canonicalDoc]

/-- One incremental save appended to an existing canonical document. -/
theorem save_step (b : List NewsRecord) (hb : b ≠ []) (bs : List (List NewsRecord)) (hbs : bs ≠ []) :
    save_results true b (some (canonicalDoc bs)) = some (canonicalDoc (bs ++ [b])) := by
  unfold save_results
  rw [if_neg hb]
  simp only [if_true]
  rw [if_neg (canonicalDoc_ne_nil bs)]
  rw [canonicalDoc_eq_append bs, take_append_two]
  rw [canonicalDoc_eq_append (bs ++ [b])]
  simp only [List.map_append, List.map_cons, List.map_nil]
  rw [joinSep_concat [',', '\n'] (bs.map dumpBatch) (dumpBatch b) (by simpa using hbs)]
  simp [List.append_assoc]

theorem runSaves_some (bs : List (List NewsRecord)) :
    ∀ (as : List (List NewsRecord)), as ≠ [] →
      runSaves bs (some (canonicalDoc as)) = some (canonicalDoc (as ++ nonEmptyBatches bs)) := by
  induction bs with
  | nil => intro as ha; simp [runSaves, nonEmptyBatches]
  | cons b t ih =>
    intro as ha
    have hfold : runSaves (b :: t) (some (canonicalDoc as)) =
        runSaves t (save_results true b (some (canonicalDoc as))) := rfl
    by_cases hb : b = []
    · subst hb
      rw [hfold, save_results_empty]
      rw [ih as ha]
      simp [nonEmptyBatches]
    · rw [hfold, save_step b hb as ha, ih (as ++ [b]) (by simp)]
      simp [nonEmptyBatches, hb, List.append_assoc]

theorem runSaves_from_none (bs : List (List NewsRecord)) :
    runSaves bs none =
      if nonEmptyBatches bs = [] then none else some (canonicalDoc (nonEmptyBatches bs)) := by
  induction bs with
  | nil => rfl
  | cons b t ih =>
    have hfold : runSaves (b :: t) none = runSaves t (save_results true b none) := rfl
    by_cases hb : b = []
    · subst hb
      rw [hfold, save_results_empty, ih]
      simp [nonEmptyBatches]
    · have hfirst : save_results true b none = some (canonicalDoc [b]) := by
        unfold save_results
        rw [if_neg hb]
        rfl
      rw [hfold, hfirst, runSaves_some t [b] (by simp)]
      have hne : nonEmptyBatches (b :: t) = b :: nonEmptyBatches t := by
        simp [nonEmptyBatches, hb]
      rw [hne]
      simp

/-! ### Number rendering and parsing -/

theorem digitChar_props (k : Nat) (hk : k < 10) :
    (digitChar k).isDigit = true ∧ (digitChar k).toNat - 48 = k ∧ isWsChar (digitChar k) = false
    ∧ digitChar k ≠ '"' ∧ digitChar k ≠ '[' ∧ digitChar k ≠ '{' ∧ digitChar k ≠ ']'
    ∧ digitChar k ≠ ',' ∧ digitChar k ≠ '\n' := by
  interval_cases k <;> decide

theorem renderNatAux_all_digits (fuel n : Nat) :
    ∀ c ∈ renderNatAux fuel n, c.isDigit = true := by
  induction fuel generalizing n with
  | zero => intro c hc; simp [renderNatAux] at hc
  | succ f ih =>
    intro c hc
    by_cases h10 : n < 10
    · simp only [renderNatAux, if_pos h10, List.mem_singleton] at hc
      exact hc ▸ (digitChar_props n h10).1
    · simp only [renderNatAux, if_neg h10, List.mem_append, List.mem_singleton] at hc
      rcases hc with hc | hc
      · exact ih (n / 10) c hc
      · exact hc ▸ (digitChar_props (n % 10) (Nat.mod_lt n (by omega))).1

theorem renderNatAux_head (fuel n : Nat) (h : n < fuel) :
    ∃ c t, renderNatAux fuel n = c :: t ∧ c.isDigit = true := by
  induction fuel generalizing n with
  | zero => omega
  | succ f ih =>
    by_cases h10 : n < 10
    · exact ⟨digitChar n, [], by simp [renderNatAux, h10], (digitChar_props n h10).1⟩
    · have hdiv : n / 10 < f := by omega
      rcases ih (n / 10) hdiv with ⟨c, t, hct, hd⟩
      exact ⟨c, t ++ [digitChar (n % 10)], by simp [renderNatAux, h10, hct], hd⟩

theorem parseDigits_renderNatAux (fuel : Nat) :
    ∀ (n : Nat), n < fuel → ∀ (rest : List Char) (acc : Nat),
      parseDigits (renderNatAux fuel n ++ rest) acc =
        parseDigits rest (acc * 10 ^ (renderNatAux fuel n).length + n) := by
  induction fuel with
  | zero => omega
  | succ f ih =>
    intro n hn rest acc
    by_cases h10 : n < 10
    · rcases digitChar_props n h10 with ⟨hd, hv, -⟩
      simp only [renderNatAux, if_pos h10, List.singleton_append, parseDigits, hd, if_true,
        List.length_singleton, pow_one, hv]
    · have hdiv : n / 10 < f := by omega
      rcases digitChar_props (n % 10) (Nat.mod_lt n (by omega)) with ⟨hd, hv, -⟩
      simp only [renderNatAux, if_neg h10, List.append_assoc, List.singleton_append]
      rw [ih (n / 10) hdiv]
      simp only [parseDigits, hd, if_true, hv, List.length_append, List.length_singleton]
      congr 1
      have hdm : 10 * (n / 10) + n % 10 = n := Nat.div_add_mod n 10
      rw [pow_succ]
      ring_nf
      omega
  
theorem parseDigits_notDigit (rest : List Char) (h : headNotDigit rest) (acc : Nat) :
    parseDigits rest acc = (acc, rest) := by
  cases rest with
  | nil => rfl
  | cons c r => simp [parseDigits, show c.isDigit = false from h]

theorem parseDigits_renderNat (n : Nat) (rest : List Char) (h : headNotDigit rest) :
    parseDigits (renderNat n ++ rest) 0 = (n, rest) := by
  rw [renderNat, parseDigits_renderNatAux (n + 1) n (Nat.lt_succ_self n) rest 0,
    parseDigits_notDigit rest h]
  simp

/-! ### String escaping round trip -/

theorem hexVal_hexDigitChar (d : Nat) (hd : d < 16) : hexVal (hexDigitChar d) = some d := by
  interval_cases d <;> decide

theorem escapeChar_ne_nil (c : Char) : escapeChar c ≠ [] := by
  unfold escapeChar
  split_ifs <;> simp

theorem parseStrBody_escapeList (s : List Char) :
    ∀ (fuel : Nat), s.length < fuel → ∀ (rest : List Char),
      parseStrBody fuel (escapeList s ++ '"' :: rest) = some (s, rest) := by
  induction s with
  | nil =>
    intro fuel hf rest
    cases fuel with
    | zero => omega
    | succ f => simp [escapeList, parseStrBody]
  | cons c cs ih =>
    intro fuel hf rest
    cases fuel with
    | zero => omega
    | succ f =>
    have hcs : cs.length < f := by
      simpa using Nat.lt_of_succ_lt_succ hf
    have ihf := ih f hcs rest
    have hstep : escapeList (c :: cs) ++ '"' :: rest
        = escapeChar c ++ (escapeList cs ++ '"' :: rest) := by
      simp [escapeList, List.append_assoc]
    rw [hstep]
    unfold escapeChar
    by_cases h1 : c = '"'
    · subst h1
      simp [parseStrBody, unescapeChar, ihf]
    · rw [if_neg h1]
      by_cases h2 : c = '\\'
      · subst h2
        simp [parseStrBody, unescapeChar, ihf]
      · rw [if_neg h2]
        by_cases h3 : c = '\n'
        · subst h3
          simp [parseStrBody, unescapeChar, ihf]
        · rw [if_neg h3]
          by_cases h4 : c = '\r'
          · subst h4
            simp [parseStrBody, unescapeChar, ihf]
          · rw [if_neg h4]
            by_cases h5 : c = '\t'
            · subst h5
              simp [parseStrBody, unescapeChar, ihf]
            · rw [if_neg h5]
              by_cases h6 : c.toNat = 8
              · rw [if_pos h6]
                simp only [List.cons_append, List.nil_append, parseStrBody, unescapeChar]
                simp [ihf]
                rw [← h6, Char.ofNat_toNat]
              · rw [if_neg h6]
                by_cases h7 : c.toNat = 12
                · rw [if_pos h7]
                  simp only [List.cons_append, List.nil_append, parseStrBody, unescapeChar]
                  simp [ihf]
                  rw [← h7, Char.ofNat_toNat]
                · rw [if_neg h7]
                  by_cases h8 : c.toNat < 32
                  · rw [if_pos h8]
                    have hdiv : c.toNat / 16 < 16 := by omega
                    have hmod : c.toNat % 16 < 16 := by omega
                    simp only [List.cons_append, List.nil_append, List.append_eq, parseStrBody]
                    simp only [show (('\\' : Char) = '"') = False by simp, if_false,
                      show (('\\' : Char) = '\\') = True by simp, if_true,
                      show (('u' : Char) = 'u') = True by simp, List.cons_append, List.nil_append]
                    rw [hexVal_hexDigitChar _ hdiv, hexVal_hexDigitChar _ hmod]
                    simp only [show hexVal '0' = some 0 from rfl]
                    rw [ihf]
                    have hval : ((0 * 16 + 0) * 16 + c.toNat / 16) * 16 + c.toNat % 16 = c.toNat := by
                      omega
                    rw [hval, Char.ofNat_toNat]
                  · rw [if_neg h8]
                    simp only [List.cons_append, List.nil_append, List.append_eq, parseStrBody,
                      if_neg h1, if_neg h2]
                    rw [ihf]

/-! ### Heads and last characters of rendered values -/

theorem isDigit_not_special (c : Char) (h : c.isDigit = true) :
    isWsChar c = false ∧ c ≠ ']' ∧ c ≠ '}' ∧ c ≠ ',' ∧ c ≠ '"' ∧ c ≠ '[' ∧ c ≠ '{'
    ∧ c ≠ ':' ∧ c ≠ '\n' := by
  have hsp : ¬c = ' ' := fun hc => absurd (hc ▸ h) (by decide)
  have hnl : ¬c = '\n' := fun hc => absurd (hc ▸ h) (by decide)
  have htb : ¬c = '\t' := fun hc => absurd (hc ▸ h) (by decide)
  have hcr : ¬c = '\r' := fun hc => absurd (hc ▸ h) (by decide)
  refine ⟨by simp [isWsChar, hsp, hnl, htb, hcr], ?_, ?_, ?_, ?_, ?_, ?_, ?_, hnl⟩
  all_goals intro hc; exact absurd (hc ▸ h) (by decide)

theorem renderNat_ne_nil_head (n : Nat) :
    ∃ c t, renderNat n = c :: t ∧ c.isDigit = true :=
  renderNatAux_head (n + 1) n (Nat.lt_succ_self n)

theorem renderVal_head (v : Json) (d : Nat) :
    ∃ c t, renderVal v d = c :: t ∧ (c = '"' ∨ c = '[' ∨ c = '{' ∨ c.isDigit = true) := by
  cases v with
  | str s => exact ⟨'"', _, rfl, Or.inl rfl⟩
  | num n =>
    rcases renderNat_ne_nil_head n with ⟨c, t, hct, hd⟩
    exact ⟨c, t, hct, Or.inr (Or.inr (Or.inr hd))⟩
  | arr l =>
    cases l with
    | nil => exact ⟨'[', _, rfl, Or.inr (Or.inl rfl)⟩
    | cons x xs => exact ⟨'[', _, rfl, Or.inr (Or.inl rfl)⟩
  | obj l =>
    cases l with
    | nil => exact ⟨'{', _, rfl, Or.inr (Or.inr (Or.inl rfl))⟩
    | cons kv kvs => exact ⟨'{', _, rfl, Or.inr (Or.inr (Or.inl rfl))⟩

theorem renderVal_head_props (v : Json) (d : Nat) :
    ∃ c t, renderVal v d = c :: t ∧ isWsChar c = false ∧ c ≠ ']' ∧ c ≠ '}' ∧ c ≠ ',' ∧ c ≠ '\n' := by
  rcases renderVal_head v d with ⟨c, t, hct, hc⟩
  refine ⟨c, t, hct, ?_⟩
  rcases hc with rfl | rfl | rfl | hd
  · exact ⟨rfl, by decide, by decide, by decide, by decide⟩
  · exact ⟨rfl, by decide, by decide, by decide, by decide⟩
  · exact ⟨rfl, by decide, by decide, by decide, by decide⟩
  · rcases isDigit_not_special c hd with ⟨h1, h2, h3, h4, -, -, -, -, h9⟩
    exact ⟨h1, h2, h3, h4, h9⟩

theorem renderNat_last (n : Nat) :
    ∃ a k, renderNat n = a ++ [digitChar k] ∧ k < 10 := by
  unfold renderNat renderNatAux
  by_cases h10 : n < 10
  · exact ⟨[], n, by simp [h10], h10⟩
  · exact ⟨renderNatAux n (n / 10), n % 10, by simp [h10], Nat.mod_lt n (by omega)⟩

theorem renderVal_last (v : Json) (d : Nat) :
    ∃ a c, renderVal v d = a ++ [c] ∧ c ≠ ',' ∧ c ≠ '\n' := by
  cases v with
  | str s =>
    exact ⟨'"' :: escapeList s.data, '"', by simp [renderVal], by decide, by decide⟩
  | num n =>
    rcases renderNat_last n with ⟨a, k, hak, hk⟩
    rcases digitChar_props k hk with ⟨-, -, -, -, -, -, -, hc, hn⟩
    exact ⟨a, digitChar k, hak, hc, hn⟩
  | arr l =>
    cases l with
    | nil => exact ⟨['['], ']', rfl, by decide, by decide⟩
    | cons x xs =>
      exact ⟨'[' :: '\n' :: (renderItems (x :: xs) (d + 1) ++ '\n' :: indentChars d), ']',
        by simp [renderVal], by decide, by decide⟩
  | obj l =>
    cases l with
    | nil => exact ⟨['{'], '}', rfl, by decide, by decide⟩
    | cons kv kvs =>
      exact ⟨'{' :: '\n' :: (renderFields (kv :: kvs) (d + 1) ++ '\n' :: indentChars d), '}',
        by simp [renderVal], by decide, by decide⟩

/-! ### skipWs lemmas -/

theorem skipWs_cons_not (c : Char) (t : List Char) (h : isWsChar c = false) :
    skipWs (c :: t) = c :: t := by
  simp [skipWs, h]

theorem skipWs_ws_append (a : List Char) (h : ∀ c ∈ a, isWsChar c = true) (b : List Char) :
    skipWs (a ++ b) = skipWs b := by
  induction a with
  | nil => rfl
  | cons c t ih =>
    simp only [List.cons_append, skipWs, h c (by simp), if_true]
    exact ih (fun x hx => h x (by simp [hx]))

theorem indentChars_ws (d : Nat) : ∀ c ∈ indentChars d, isWsChar c = true := by
  intro c hc
  rw [indentChars] at hc
  rw [List.eq_of_mem_replicate hc]
  rfl

theorem skipWs_renderVal (v : Json) (d : Nat) (rest : List Char) :
    skipWs (renderVal v d ++ rest) = renderVal v d ++ rest := by
  rcases renderVal_head_props v d with ⟨c, t, hct, hws, -⟩
  rw [hct, List.cons_append, skipWs_cons_not c (t ++ rest) hws]

theorem skipWs_indent_renderVal (e : Nat) (v : Json) (d : Nat) (rest : List Char) :
    skipWs ((indentChars e ++ renderVal v d) ++ rest) = renderVal v d ++ rest := by
  rw [List.append_assoc, skipWs_ws_append (indentChars e) (indentChars_ws e), skipWs_renderVal]

/-! ### Parser rule lemmas -/

theorem parseVal_str_rule (fuel : Nat) (cs r s rest : List Char)
    (h1 : skipWs cs = '"' :: r) (h2 : parseStrBody (r.length + 1) r = some (s, rest)) :
    parseVal (fuel + 1) cs = some (.str (String.mk s), rest) := by
  simp only [parseVal, h1, h2]
  rfl

theorem parseVal_arrNil_rule (fuel : Nat) (cs r r2 : List Char)
    (h1 : skipWs cs = '[' :: r) (h2 : skipWs r = ']' :: r2) :
    parseVal (fuel + 1) cs = some (.arr [], r2) := by
  simp only [parseVal, h1, h2]
  rfl

theorem parseVal_arr_rule (fuel : Nat) (cs r : List Char) (c0 : Char) (t0 : List Char)
    (vs : List Json) (rest : List Char)
    (h1 : skipWs cs = '[' :: r) (h2 : skipWs r = c0 :: t0) (h3 : c0 ≠ ']')
    (h4 : parseItems fuel (c0 :: t0) = some (vs, rest)) :
    parseVal (fuel + 1) cs = some (.arr vs, rest) := by
  simp only [parseVal, h1, h2, show (('[' : Char) = '"') = False by simp, if_false,
    show (('[' : Char) = '[') = True by simp, if_true]
  split
  · rename_i heq
    rcases List.cons_eq_cons.mp heq with ⟨h, -⟩
    exact absurd h h3
  · rename_i heq
    simp [h4]

theorem parseVal_objNil_rule (fuel : Nat) (cs r r2 : List Char)
    (h1 : skipWs cs = '{' :: r) (h2 : skipWs r = '}' :: r2) :
    parseVal (fuel + 1) cs = some (.obj [], r2) := by
  simp only [parseVal, h1, h2]
  rfl

theorem parseVal_obj_rule (fuel : Nat) (cs r : List Char) (c0 : Char) (t0 : List Char)
    (fs : List (String × Json)) (rest : List Char)
    (h1 : skipWs cs = '{' :: r) (h2 : skipWs r = c0 :: t0) (h3 : c0 ≠ '}')
    (h4 : parseFields fuel (c0 :: t0) = some (fs, rest)) :
    parseVal (fuel + 1) cs = some (.obj fs, rest) := by
  simp only [parseVal, h1, h2, show (('{' : Char) = '"') = False by simp, if_false,
    show (('{' : Char) = '[') = False by simp, show (('{' : Char) = '{') = True by simp, if_true]
  split
  · rename_i heq
    rcases List.cons_eq_cons.mp heq with ⟨h, -⟩
    exact absurd h h3
  · rename_i heq
    simp [h4]

theorem parseVal_num_rule (fuel : Nat) (cs : List Char) (c : Char) (r : List Char)
    (h1 : skipWs cs = c :: r) (h2 : c.isDigit = true) :
    parseVal (fuel + 1) cs = some (.num (parseDigits (c :: r) 0).1, (parseDigits (c :: r) 0).2) := by
  rcases isDigit_not_special c h2 with ⟨-, -, -, -, h5, h6, h7, -, -⟩
  simp only [parseVal, h1, if_neg h5, if_neg h6, if_neg h7, h2, if_true]

theorem parseItems_cons_rule (fuel : Nat) (cs r r2 r3 : List Char) (v : Json) (vs : List Json)
    (h1 : parseVal fuel cs = some (v, r)) (h2 : skipWs r = ',' :: r2)
    (h3 : parseItems fuel r2 = some (vs, r3)) :
    parseItems (fuel + 1) cs = some (v :: vs, r3) := by
  simp only [parseItems, h1, h2, h3]

theorem parseItems_single_rule (fuel : Nat) (cs r r2 : List Char) (v : Json)
    (h1 : parseVal fuel cs = some (v, r)) (h2 : skipWs r = ']' :: r2) :
    parseItems (fuel + 1) cs = some ([v], r2) := by
  simp only [parseItems, h1, h2]

theorem parseFields_cons_rule (fuel : Nat) (cs r r1 r2 r3 r4 r5 : List Char) (k : List Char)
    (v : Json) (fs : List (String × Json))
    (h1 : skipWs cs = '"' :: r) (h2 : parseStrBody (r.length + 1) r = some (k, r1))
    (h3 : skipWs r1 = ':' :: r2) (h4 : parseVal fuel r2 = some (v, r3))
    (h5 : skipWs r3 = ',' :: r4) (h6 : parseFields fuel r4 = some (fs, r5)) :
    parseFields (fuel + 1) cs = some ((String.mk k, v) :: fs, r5) := by
  simp only [parseFields, h1, h2, h3, h4, h5, h6]

theorem parseFields_single_rule (fuel : Nat) (cs r r1 r2 r3 r4 : List Char) (k : List Char)
    (v : Json)
    (h1 : skipWs cs = '"' :: r) (h2 : parseStrBody (r.length + 1) r = some (k, r1))
    (h3 : skipWs r1 = ':' :: r2) (h4 : parseVal fuel r2 = some (v, r3))
    (h5 : skipWs r3 = '}' :: r4) :
    parseFields (fuel + 1) cs = some ([(String.mk k, v)], r4) := by
  simp only [parseFields, h1, h2, h3, h4, h5]

/-! ### Auxiliary facts for the round-trip proof -/

theorem skipWs_idem (l : List Char) : skipWs (skipWs l) = skipWs l := by
  induction l with
  | nil => rfl
  | cons c t ih =>
    by_cases h : isWsChar c = true
    · simp [skipWs, h, ih]
    · simp [skipWs, h]

theorem skipWs_nl (l : List Char) : skipWs ('\n' :: l) = skipWs l := by
  simp [skipWs, show isWsChar '\n' = true from by decide]

theorem escapeList_length (s : List Char) : s.length ≤ (escapeList s).length := by
  induction s with
  | nil => simp [escapeList]
  | cons c t ih =>
    have h1 : 0 < (escapeChar c).length := List.length_pos.mpr (escapeChar_ne_nil c)
    simp only [escapeList, List.length_append, List.length_cons]
    omega

theorem size_pos (v : Json) : 1 ≤ Json.size v := by
  cases v <;> simp [Json.size]

theorem renderItems_skip_head (l : List Json) (d : Nat) (suffix : List Char) (h : l ≠ []) :
    ∃ c0 t0, skipWs (renderItems l d ++ suffix) = c0 :: t0 ∧ c0 ≠ ']' ∧ c0 ≠ '}' := by
  have key : ∀ (x : Json) (tail : List Char),
      skipWs ((indentChars d ++ (renderVal x d ++ tail)) ++ suffix)
        = skipWs (renderVal x d ++ (tail ++ suffix)) := by
    intro x tail
    rw [List.append_assoc, skipWs_ws_append (indentChars d) (indentChars_ws d),
      List.append_assoc]
  cases l with
  | nil => exact absurd rfl h
  | cons x xs =>
    cases xs with
    | nil =>
      rcases renderVal_head_props x d with ⟨c, t, hct, hws, hbr, hbc, -, -⟩
      refine ⟨c, t ++ suffix, ?_, hbr, hbc⟩
      have h0 : renderItems [x] d = indentChars d ++ (renderVal x d ++ []) := by
        simp [renderItems]
      rw [h0, key x [], hct, List.cons_append,
        skipWs_cons_not c _ hws]
      simp
    | cons y ys =>
      rcases renderVal_head_props x d with ⟨c, t, hct, hws, hbr, hbc, -, -⟩
      refine ⟨c, t ++ ((',' :: '\n' :: renderItems (y :: ys) d) ++ suffix), ?_, hbr, hbc⟩
      have h0 : renderItems (x :: y :: ys) d
          = indentChars d ++ (renderVal x d ++ (',' :: '\n' :: renderItems (y :: ys) d)) := by
        simp [renderItems]
      rw [h0, key x _, hct, List.cons_append, skipWs_cons_not c _ hws]

theorem renderFields_skip_head (fs : List (String × Json)) (d : Nat) (suffix : List Char)
    (h : fs ≠ []) :
    ∃ c0 t0, skipWs (renderFields fs d ++ suffix) = c0 :: t0 ∧ c0 ≠ ']' ∧ c0 ≠ '}' := by
  cases fs with
  | nil => exact absurd rfl h
  | cons kv kvs =>
    rcases kv with ⟨k, v⟩
    cases kvs with
    | nil =>
      refine ⟨'"', (escapeList k.data ++ ['"'] ++ (':' :: ' ' :: renderVal v d)) ++ suffix,
        ?_, by decide, by decide⟩
      have h0 : renderFields [(k, v)] d
          = indentChars d ++ ('"' :: ((escapeList k.data ++ ['"'] ++ (':' :: ' ' :: renderVal v d)))) := by
        simp [renderFields, renderKey, List.append_assoc]
      rw [h0, List.append_assoc, skipWs_ws_append (indentChars d) (indentChars_ws d),
        List.cons_append, skipWs_cons_not '"' _ (by decide)]
    | cons kv2 kvs2 =>
      refine ⟨'"', (escapeList k.data ++ ['"']
          ++ (':' :: ' ' :: (renderVal v d ++ ',' :: '\n' :: renderFields (kv2 :: kvs2) d))) ++ suffix,
        ?_, by decide, by decide⟩
      have h0 : renderFields ((k, v) :: kv2 :: kvs2) d
          = indentChars d ++ ('"' :: (escapeList k.data ++ ['"']
              ++ (':' :: ' ' :: (renderVal v d ++ ',' :: '\n' :: renderFields (kv2 :: kvs2) d)))) := by
        simp [renderFields, renderKey, List.append_assoc]
      rw [h0, List.append_assoc, skipWs_ws_append (indentChars d) (indentChars_ws d),
        List.cons_append, skipWs_cons_not '"' _ (by decide)]

theorem headNotDigit_cons (c : Char) (x : List Char) (h : c.isDigit = false) :
    headNotDigit (c :: x) := h

/-- Round trip: the parser recovers exactly the value the renderer printed,
leaving the trailing input untouched, for any fuel at least the size of the
value.  The three conjuncts run the mutual induction through array items
and object fields (whose rendered text is followed by the `\n`-indent-close
of the surrounding bracket). -/
theorem parse_render :
    ∀ fuel : Nat,
      (∀ (v : Json) (d : Nat) (cs rest : List Char), Json.size v ≤ fuel →
          skipWs cs = renderVal v d ++ rest → headNotDigit rest →
          parseVal fuel cs = some (v, rest))
      ∧ (∀ (l : List Json) (d e : Nat) (cs rest : List Char), l ≠ [] → Json.sizeL l ≤ fuel →
          skipWs cs = skipWs (renderItems l d ++ '\n' :: (indentChars e ++ ']' :: rest)) →
          headNotDigit rest →
          parseItems fuel cs = some (l, rest))
      ∧ (∀ (fs : List (String × Json)) (d e : Nat) (cs rest : List Char), fs ≠ [] →
          Json.sizeF fs ≤ fuel →
          skipWs cs = skipWs (renderFields fs d ++ '\n' :: (indentChars e ++ '}' :: rest)) →
          headNotDigit rest →
          parseFields fuel cs = some (fs, rest)) := by
  intro fuel
  induction fuel with
  | zero =>
    refine ⟨?_, ?_, ?_⟩
    · intro v d cs rest hsz
      exact absurd hsz (by have := size_pos v; omega)
    · intro l d e cs rest hne hsz
      exfalso
      cases l with
      | nil => exact hne rfl
      | cons x xs =>
        have h1 := size_pos x
        rw [Json.sizeL] at hsz
        omega
    · intro fs d e cs rest hne hsz
      exfalso
      cases fs with
      | nil => exact hne rfl
      | cons kv kvs =>
        rcases kv with ⟨k, v⟩
        have h1 := size_pos v
        rw [Json.sizeF] at hsz
        omega
  | succ fuel ih =>
    obtain ⟨ihV, ihI, ihF⟩ := ih
    refine ⟨?_, ?_, ?_⟩
    · -- parseVal
      intro v d cs rest hsz hcs hrest
      cases v with
      | str s =>
        have hr : skipWs cs = '"' :: (escapeList s.data ++ '"' :: rest) := by
          simpa [renderVal, List.append_assoc] using hcs
        have hlen : s.data.length < (escapeList s.data ++ '"' :: rest).length + 1 := by
          have := escapeList_length s.data
          simp only [List.length_append, List.length_cons]
          omega
        have hps := parseStrBody_escapeList s.data
          ((escapeList s.data ++ '"' :: rest).length + 1) hlen rest
        have hres := parseVal_str_rule fuel cs _ s.data rest hr hps
        simpa using hres
      | num n =>
        rcases renderNat_ne_nil_head n with ⟨c, t, hct, hcd⟩
        have hr : skipWs cs = c :: (t ++ rest) := by
          rw [hcs]
          show renderVal (.num n) d ++ rest = _
          rw [renderVal, hct]
          simp
        rw [parseVal_num_rule fuel cs c (t ++ rest) hr hcd]
        have h2 := parseDigits_renderNat n rest hrest
        rw [hct] at h2
        simp only [List.cons_append] at h2
        rw [h2]
      | arr l =>
        cases l with
        | nil =>
          have hr : skipWs cs = '[' :: (']' :: rest) := by
            simpa [renderVal] using hcs
          exact parseVal_arrNil_rule fuel cs _ rest hr (skipWs_cons_not _ _ (by decide))
        | cons x xs =>
          have hr : skipWs cs = '[' ::
              ('\n' :: (renderItems (x :: xs) (d + 1)
                ++ '\n' :: (indentChars d ++ ']' :: rest))) := by
            rw [hcs]
            show renderVal (.arr (x :: xs)) d ++ rest = _
            rw [renderVal]
            simp [List.append_assoc]
          rcases renderItems_skip_head (x :: xs) (d + 1)
              ('\n' :: (indentChars d ++ ']' :: rest)) (by simp) with ⟨c0, t0, hskip, hbr, -⟩
          have hsz2 : Json.sizeL (x :: xs) ≤ fuel := by
            simp [Json.size] at hsz; omega
          have hpi := ihI (x :: xs) (d + 1) d (c0 :: t0) rest (by simp) hsz2 ?_ hrest
          · exact parseVal_arr_rule fuel cs _ c0 t0 (x :: xs) rest hr
              (by rw [skipWs_nl, hskip]) hbr hpi
          · rw [← hskip, skipWs_idem]
      | obj l =>
        cases l with
        | nil =>
          have hr : skipWs cs = '{' :: ('}' :: rest) := by
            simpa [renderVal] using hcs
          exact parseVal_objNil_rule fuel cs _ rest hr (skipWs_cons_not _ _ (by decide))
        | cons kv kvs =>
          have hr : skipWs cs = '{' ::
              ('\n' :: (renderFields (kv :: kvs) (d + 1)
                ++ '\n' :: (indentChars d ++ '}' :: rest))) := by
            rw [hcs]
            show renderVal (.obj (kv :: kvs)) d ++ rest = _
            rw [renderVal]
            simp [List.append_assoc]
          rcases renderFields_skip_head (kv :: kvs) (d + 1)
              ('\n' :: (indentChars d ++ '}' :: rest)) (by simp) with ⟨c0, t0, hskip, -, hbc⟩
          have hsz2 : Json.sizeF (kv :: kvs) ≤ fuel := by
            simp [Json.size] at hsz; omega
          have hpf := ihF (kv :: kvs) (d + 1) d (c0 :: t0) rest (by simp) hsz2 ?_ hrest
          · exact parseVal_obj_rule fuel cs _ c0 t0 (kv :: kvs) rest hr
              (by rw [skipWs_nl, hskip]) hbc hpf
          · rw [← hskip, skipWs_idem]
    · -- parseItems
      intro l d e cs rest hne hsz hcs hrest
      cases l with
      | nil => exact absurd rfl hne
      | cons x xs =>
        cases xs with
        | nil =>
          have hlay : skipWs cs = renderVal x d ++ ('\n' :: (indentChars e ++ ']' :: rest)) := by
            rw [hcs]
            show skipWs (renderItems [x] d ++ _) = _
            rw [show renderItems [x] d = indentChars d ++ renderVal x d from rfl,
              List.append_assoc, skipWs_ws_append (indentChars d) (indentChars_ws d),
              skipWs_renderVal]
          have hsx : Json.size x ≤ fuel := by
            simp [Json.sizeL] at hsz; omega
          have hpv := ihV x d cs ('\n' :: (indentChars e ++ ']' :: rest)) hsx hlay
            (headNotDigit_cons _ _ (by decide))
          have htail : skipWs ('\n' :: (indentChars e ++ ']' :: rest)) = ']' :: rest := by
            rw [skipWs_nl, skipWs_ws_append (indentChars e) (indentChars_ws e),
              skipWs_cons_not _ _ (by decide)]
          exact parseItems_single_rule fuel cs _ rest x hpv htail
        | cons y ys =>
          have hlay : skipWs cs = renderVal x d
              ++ (',' :: '\n' :: (renderItems (y :: ys) d
                ++ '\n' :: (indentChars e ++ ']' :: rest))) := by
            rw [hcs]
            show skipWs (renderItems (x :: y :: ys) d ++ _) = _
            rw [show renderItems (x :: y :: ys) d
                = indentChars d ++ (renderVal x d ++ ',' :: '\n' :: renderItems (y :: ys) d)
                from rfl]
            rw [List.append_assoc, skipWs_ws_append (indentChars d) (indentChars_ws d),
              List.append_assoc, skipWs_renderVal]
            simp [List.append_assoc]
          have hsx : Json.size x ≤ fuel := by
            simp [Json.sizeL] at hsz; omega
          have hsl : Json.sizeL (y :: ys) ≤ fuel := by
            have := size_pos x
            simp [Json.sizeL] at hsz ⊢
            omega
          have hpv := ihV x d cs
            (',' :: '\n' :: (renderItems (y :: ys) d ++ '\n' :: (indentChars e ++ ']' :: rest)))
            hsx hlay (headNotDigit_cons _ _ (by decide))
          have hsep : skipWs (',' :: '\n' :: (renderItems (y :: ys) d
              ++ '\n' :: (indentChars e ++ ']' :: rest)))
              = ',' :: ('\n' :: (renderItems (y :: ys) d
                ++ '\n' :: (indentChars e ++ ']' :: rest))) :=
            skipWs_cons_not _ _ (by decide)
          have hrec := ihI (y :: ys) d e
            ('\n' :: (renderItems (y :: ys) d ++ '\n' :: (indentChars e ++ ']' :: rest)))
            rest (by simp) hsl (by rw [skipWs_nl]) hrest
          exact parseItems_cons_rule fuel cs _ _ rest x (y :: ys) hpv hsep hrec
    · -- parseFields
      intro fs d e cs rest hne hsz hcs hrest
      cases fs with
      | nil => exact absurd rfl hne
      | cons kv kvs =>
        rcases kv with ⟨k, v⟩
        cases kvs with
        | nil =>
          have hlay : skipWs cs = '"' :: (escapeList k.data
              ++ '"' :: (':' :: ' ' :: (renderVal v d
                ++ '\n' :: (indentChars e ++ '}' :: rest)))) := by
            rw [hcs]
            show skipWs (renderFields [(k, v)] d ++ _) = _
            rw [show renderFields [(k, v)] d
                = indentChars d ++ (renderKey k ++ ':' :: ' ' :: renderVal v d) from rfl]
            rw [List.append_assoc, skipWs_ws_append (indentChars d) (indentChars_ws d)]
            simp only [renderKey, List.cons_append, List.nil_append, List.append_assoc]
            rw [skipWs_cons_not _ _ (by decide)]
          have hlen : k.data.length < (escapeList k.data
              ++ '"' :: (':' :: ' ' :: (renderVal v d
                ++ '\n' :: (indentChars e ++ '}' :: rest)))).length + 1 := by
            have := escapeList_length k.data
            simp only [List.length_append, List.length_cons]
            omega
          have hps := parseStrBody_escapeList k.data _ hlen
            (':' :: ' ' :: (renderVal v d ++ '\n' :: (indentChars e ++ '}' :: rest)))
          have hsv : Json.size v ≤ fuel := by
            simp [Json.sizeF] at hsz; omega
          have hpv := ihV v d
            (' ' :: (renderVal v d ++ '\n' :: (indentChars e ++ '}' :: rest)))
            ('\n' :: (indentChars e ++ '}' :: rest)) hsv
            (by rw [show skipWs (' ' :: (renderVal v d ++ '\n' :: (indentChars e ++ '}' :: rest)))
                  = skipWs (renderVal v d ++ '\n' :: (indentChars e ++ '}' :: rest)) from by
                    simp [skipWs, show isWsChar ' ' = true from by decide],
                skipWs_renderVal])
            (headNotDigit_cons _ _ (by decide))
          have htail : skipWs ('\n' :: (indentChars e ++ '}' :: rest)) = '}' :: rest := by
            rw [skipWs_nl, skipWs_ws_append (indentChars e) (indentChars_ws e),
              skipWs_cons_not _ _ (by decide)]
          have hres := parseFields_single_rule fuel cs _ _ _ _ rest k.data v hlay hps
            (skipWs_cons_not _ _ (by decide)) hpv htail
          simpa using hres
        | cons kv2 kvs2 =>
          have hlay : skipWs cs = '"' :: (escapeList k.data
              ++ '"' :: (':' :: ' ' :: (renderVal v d
                ++ ',' :: '\n' :: (renderFields (kv2 :: kvs2) d
                  ++ '\n' :: (indentChars e ++ '}' :: rest))))) := by
            rw [hcs]
            show skipWs (renderFields ((k, v) :: kv2 :: kvs2) d ++ _) = _
            rw [show renderFields ((k, v) :: kv2 :: kvs2) d
                = indentChars d ++ (renderKey k ++ ':' :: ' '
                    :: (renderVal v d ++ ',' :: '\n' :: renderFields (kv2 :: kvs2) d)) from rfl]
            rw [List.append_assoc, skipWs_ws_append (indentChars d) (indentChars_ws d)]
            simp only [renderKey, List.cons_append, List.nil_append, List.append_assoc]
            rw [skipWs_cons_not _ _ (by decide)]
          have hlen : k.data.length < (escapeList k.data
              ++ '"' :: (':' :: ' ' :: (renderVal v d
                ++ ',' :: '\n' :: (renderFields (kv2 :: kvs2) d
                  ++ '\n' :: (indentChars e ++ '}' :: rest))))).length + 1 := by
            have := escapeList_length k.data
            simp only [List.length_append, List.length_cons]
            omega
          have hps := parseStrBody_escapeList k.data _ hlen
            (':' :: ' ' :: (renderVal v d ++ ',' :: '\n' :: (renderFields (kv2 :: kvs2) d
              ++ '\n' :: (indentChars e ++ '}' :: rest))))
          have hsv : Json.size v ≤ fuel := by
            simp [Json.sizeF] at hsz; omega
          have hsf : Json.sizeF (kv2 :: kvs2) ≤ fuel := by
            have := size_pos v
            simp [Json.sizeF] at hsz ⊢
            omega
          have hpv := ihV v d
            (' ' :: (renderVal v d ++ ',' :: '\n' :: (renderFields (kv2 :: kvs2) d
              ++ '\n' :: (indentChars e ++ '}' :: rest))))
            (',' :: '\n' :: (renderFields (kv2 :: kvs2) d
              ++ '\n' :: (indentChars e ++ '}' :: rest))) hsv
            (by rw [show ∀ z, skipWs (' ' :: z) = skipWs z from fun z => by
                  simp [skipWs, show isWsChar ' ' = true from by decide],
                skipWs_renderVal])
            (headNotDigit_cons _ _ (by decide))
          have hrec := ihF (kv2 :: kvs2) d e
            ('\n' :: (renderFields (kv2 :: kvs2) d ++ '\n' :: (indentChars e ++ '}' :: rest)))
            rest (by simp) hsf (by rw [skipWs_nl]) hrest
          have hres := parseFields_cons_rule fuel cs _ _ _ _ _ _ k.data v
            (kv2 :: kvs2) hlay hps (skipWs_cons_not _ _ (by decide)) hpv
            (skipWs_cons_not _ _ (by decide)) hrec
          simpa using hres

/-! ### Parsing the on-disk document -/

/-- At depth 0 the item indentation is empty, so the `save_results` splice
layout (batch dumps joined by `",\n"`) is exactly a depth-0 item list. -/
theorem renderItems_zero_eq_joinSep (l : List Json) :
    renderItems l 0 = joinSep [',', '\n'] (l.map (fun v => renderVal v 0)) := by
  induction l with
  | nil => rfl
  | cons x xs ih =>
    cases xs with
    | nil => simp [renderItems, joinSep, indentChars]
    | cons y t =>
      show indentChars 0 ++ (renderVal x 0 ++ ',' :: '\n' :: renderItems (y :: t) 0) = _
      rw [ih]
      simp [joinSep, indentChars, List.append_assoc]

/-- The rendered text is at least as long as the value's size measure
(so `input length` is always enough parser fuel). -/
theorem render_length :
    ∀ n : Nat,
      (∀ v : Json, Json.size v ≤ n → ∀ d, Json.size v ≤ (renderVal v d).length)
      ∧ (∀ l : List Json, Json.sizeL l ≤ n → ∀ d, l ≠ [] →
          Json.sizeL l ≤ (renderItems l d).length + 1)
      ∧ (∀ fs : List (String × Json), Json.sizeF fs ≤ n → ∀ d, fs ≠ [] →
          Json.sizeF fs ≤ (renderFields fs d).length + 1) := by
  intro n
  induction n with
  | zero =>
    refine ⟨?_, ?_, ?_⟩
    · intro v hsz
      exact absurd hsz (by have := size_pos v; omega)
    · intro l hsz d hne
      cases l with
      | nil => exact absurd rfl hne
      | cons x xs =>
        exfalso
        have := size_pos x
        rw [Json.sizeL] at hsz
        omega
    · intro fs hsz d hne
      cases fs with
      | nil => exact absurd rfl hne
      | cons kv kvs =>
        exfalso
        rcases kv with ⟨k, v⟩
        have := size_pos v
        rw [Json.sizeF] at hsz
        omega
  | succ n ih =>
    obtain ⟨ihV, ihI, ihF⟩ := ih
    refine ⟨?_, ?_, ?_⟩
    · intro v hsz d
      cases v with
      | str s => simp [renderVal, Json.size]
      | num n =>
        rcases renderNat_ne_nil_head n with ⟨c, t, hct, -⟩
        simp [renderVal, Json.size, hct]
      | arr l =>
        cases l with
        | nil => simp [renderVal, Json.size, Json.sizeL]
        | cons x xs =>
          have hs : Json.sizeL (x :: xs) ≤ n := by rw [Json.size] at hsz; omega
          have hi := ihI (x :: xs) hs (d + 1) (by simp)
          rw [Json.size]
          simp only [renderVal, List.length_cons, List.length_append]
          omega
      | obj l =>
        cases l with
        | nil => simp [renderVal, Json.size, Json.sizeF]
        | cons kv kvs =>
          have hs : Json.sizeF (kv :: kvs) ≤ n := by rw [Json.size] at hsz; omega
          have hi := ihF (kv :: kvs) hs (d + 1) (by simp)
          rw [Json.size]
          simp only [renderVal, List.length_cons, List.length_append]
          omega
    · intro l hsz d hne
      cases l with
      | nil => exact absurd rfl hne
      | cons x xs =>
        have hx : Json.size x ≤ n := by
          have := size_pos x
          rw [Json.sizeL] at hsz
          omega
        have hvx := ihV x hx d
        cases xs with
        | nil =>
          rw [Json.sizeL, Json.sizeL]
          simp only [renderItems, List.length_append]
          omega
        | cons y t =>
          have hyt : Json.sizeL (y :: t) ≤ n := by
            have := size_pos x
            rw [Json.sizeL] at hsz
            omega
          have hit := ihI (y :: t) hyt d (by simp)
          rw [Json.sizeL]
          simp only [renderItems, List.length_append, List.length_cons]
          omega
    · intro fs hsz d hne
      cases fs with
      | nil => exact absurd rfl hne
      | cons kv kvs =>
        rcases kv with ⟨k, v⟩
        have hv : Json.size v ≤ n := by
          have := size_pos v
          rw [Json.sizeF] at hsz
          omega
        have hvv := ihV v hv d
        cases kvs with
        | nil =>
          rw [Json.sizeF, Json.sizeF]
          simp only [renderFields, List.length_append, List.length_cons]
          omega
        | cons kv2 kvs2 =>
          have h2 : Json.sizeF (kv2 :: kvs2) ≤ n := by
            have := size_pos v
            rw [Json.sizeF] at hsz
            omega
          have hif := ihF (kv2 :: kvs2) h2 d (by simp)
          rw [Json.sizeF]
          simp only [renderFields, List.length_append, List.length_cons]
          omega

theorem dumpBatch_join_eq (bs : List (List NewsRecord)) :
    joinSep [',', '\n'] (bs.map dumpBatch) = renderItems (bs.map batchJson) 0 := by
  rw [renderItems_zero_eq_joinSep]
  congr 1
  rw [List.map_map]
  rfl

theorem canonicalDoc_layout (bs : List (List NewsRecord)) :
    canonicalDoc bs = '[' :: ('\n' :: (renderItems (bs.map batchJson) 0
      ++ '\n' :: (indentChars 0 ++ ']' :: []))) := by
  rw [canonicalDoc, dumpBatch_join_eq]
  simp [indentChars]

/-- The document on disk after any non-empty run of saves parses as the
array of per-batch sub-arrays. -/
theorem parseJson_canonicalDoc (bs : List (List NewsRecord)) (h : bs ≠ []) :
    parseJson (canonicalDoc bs) = some (Json.arr (bs.map batchJson)) := by
  have hLne : bs.map batchJson ≠ [] := by simpa using h
  have hflen : Json.sizeL (bs.map batchJson) ≤ (canonicalDoc bs).length := by
    have hb := (render_length (Json.sizeL (bs.map batchJson))).2.1 (bs.map batchJson)
      le_rfl 0 hLne
    rw [canonicalDoc_layout]
    simp only [List.length_cons, List.length_append, indentChars, Nat.mul_zero,
      List.replicate_zero, List.nil_append]
    omega
  have h1 : skipWs (canonicalDoc bs) = '[' :: ('\n' :: (renderItems (bs.map batchJson) 0
      ++ '\n' :: (indentChars 0 ++ ']' :: []))) := by
    rw [canonicalDoc_layout]
    exact skipWs_cons_not _ _ (by decide)
  rcases renderItems_skip_head (bs.map batchJson) 0 ('\n' :: (indentChars 0 ++ ']' :: []))
    hLne with ⟨c0, t0, hskip, hbr, -⟩
  have hpi := (parse_render ((canonicalDoc bs).length)).2.1 (bs.map batchJson) 0 0
    (c0 :: t0) [] hLne hflen (by rw [← hskip, skipWs_idem]) trivial
  have hpv := parseVal_arr_rule ((canonicalDoc bs).length) (canonicalDoc bs) _ c0 t0
    (bs.map batchJson) [] h1 (by rw [skipWs_nl, hskip]) hbr hpi
  simp only [parseJson]
  rw [hpv]
  simp [skipWs]

theorem canonicalDoc_last (bs : List (List NewsRecord)) :
    (canonicalDoc bs).getLast? = some ']' := by
  rw [canonicalDoc_eq_append bs,
    show ('[' :: '\n' :: joinSep [',', '\n'] (bs.map dumpBatch)) ++ ['\n', ']']
      = (('[' :: '\n' :: joinSep [',', '\n'] (bs.map dumpBatch)) ++ ['\n']) ++ [']'] by
        simp [List.append_assoc]]
  exact List.getLast?_concat _

theorem nonEmptyBatches_eq_self (bs : List (List NewsRecord)) (h : ∀ b ∈ bs, b ≠ []) :
    nonEmptyBatches bs = bs := by
  rw [nonEmptyBatches, List.filter_eq_self]
  intro b hb
  simpa using h b hb

/-! ### Claim C4 -/

/-- Claim C4: whenever the output file exists after a sequence of completed
`save_results` calls, its content ends with a closing bracket and parses as
syntactically valid JSON — concretely, as the array whose elements are the
sub-arrays written for the non-empty batches so far. -/
theorem claim_C4 :
    ∀ (batches : List (List NewsRecord)) (content : List Char),
      runSaves batches none = some content →
      content.getLast? = some ']'
      ∧ parseJson content = some (Json.arr ((nonEmptyBatches batches).map batchJson)) := by
  intro batches content h
  rw [runSaves_from_none] at h
  by_cases hne : nonEmptyBatches batches = []
  · rw [if_pos hne] at h
    exact absurd h (by simp)
  · rw [if_neg hne] at h
    rcases Option.some.inj h with rfl
    exact ⟨canonicalDoc_last _, parseJson_canonicalDoc _ hne⟩

theorem claim_C4_witness :
    runSaves [[recSample]] none = some (canonicalDoc [[recSample]])
    ∧ ((canonicalDoc [[recSample]]).getLast? = some ']'
        ∧ parseJson (canonicalDoc [[recSample]])
            = some (Json.arr ((nonEmptyBatches [[recSample]]).map batchJson))) :=
  ⟨rfl, claim_C4 [[recSample]] (canonicalDoc [[recSample]]) rfl⟩

/-! ### The pattern `",\n]"` never occurs in a rendered document -/

theorem SubOcc_length (pat s : List Char) (h : SubOcc pat s) : pat.length ≤ s.length := by
  rcases h with ⟨p, t, rfl⟩
  simp only [List.length_append]
  omega

theorem NoCNB_short (s : List Char) (h : s.length < 3) : NoCNB s := by
  intro hs
  have := SubOcc_length _ _ hs
  simp at this
  omega

theorem NoCNB_of_nl_not_mem (s : List Char) (h : '\n' ∉ s) : NoCNB s := by
  rintro ⟨p, t, rfl⟩
  exact h (by simp)

theorem NoCNB_of_comma_not_mem (s : List Char) (h : ',' ∉ s) : NoCNB s := by
  rintro ⟨p, t, rfl⟩
  exact h (by simp)

theorem NoCNB_tail (c : Char) (s : List Char) (h : NoCNB (c :: s)) : NoCNB s := by
  rintro ⟨p, t, rfl⟩
  exact h ⟨c :: p, t, rfl⟩

/-- An occurrence of a three-character pattern in `a ++ b` lies in `a`, lies
in `b`, or straddles the boundary in one of the two possible ways. -/
theorem SubOcc3_append (x y z : Char) (a b : List Char) (h : SubOcc [x, y, z] (a ++ b)) :
    SubOcc [x, y, z] a ∨ SubOcc [x, y, z] b
    ∨ (∃ p, a = p ++ [x] ∧ ∃ t, b = y :: z :: t)
    ∨ (∃ p, a = p ++ [x, y] ∧ ∃ t, b = z :: t) := by
  rcases h with ⟨p, t, hpt⟩
  rw [List.append_assoc] at hpt
  rcases List.append_eq_append_iff.mp hpt with ⟨a1, ha1, hb1⟩ | ⟨c1, hc1, hd1⟩
  · right; left
    exact ⟨a1, t, by rw [hb1, List.append_assoc]⟩
  · rcases List.append_eq_append_iff.mp hd1.symm with ⟨w, hw1, hw2⟩ | ⟨w, hw1, hw2⟩
    · -- hw1 : [x,y,z] = c1 ++ w, hw2 : b = w ++ t
      rcases c1 with _ | ⟨d1, c1⟩
      · right; left
        simp only [List.nil_append] at hw1
        exact ⟨[], t, by rw [hw2, ← hw1]; simp⟩
      · simp only [List.cons_append] at hw1
        injection hw1 with h1 h2
        rcases c1 with _ | ⟨d2, c1⟩
        · simp only [List.nil_append] at h2
          right; right; left
          refine ⟨p, by rw [hc1, h1], t, by rw [hw2, ← h2]; simp⟩
        · simp only [List.cons_append] at h2
          injection h2 with h3 h4
          rcases c1 with _ | ⟨d3, c1⟩
          · simp only [List.nil_append] at h4
            right; right; right
            refine ⟨p, by rw [hc1, h1, h3], t, by rw [hw2, ← h4]; simp⟩
          · simp only [List.cons_append] at h4
            injection h4 with h5 h6
            rcases List.append_eq_nil.mp h6.symm with ⟨hc3, hww⟩
            left
            refine ⟨p, [], ?_⟩
            rw [hc1, hc3, h1, h3, h5]
            simp
    · -- hw1 : c1 = [x,y,z] ++ w, hw2 : t = w ++ b
      left
      exact ⟨p, w, by rw [hc1, hw1, List.append_assoc]⟩

theorem NoCNB_append_left (a b : List Char) (ha : NoCNB a) (hb : NoCNB b)
    (h1 : ∀ c t, b = c :: t → c ≠ '\n' ∧ c ≠ ']') : NoCNB (a ++ b) := by
  intro h
  rcases SubOcc3_append ',' '\n' ']' a b h with h | h | ⟨p, hp, t, ht⟩ | ⟨p, hp, t, ht⟩
  · exact ha h
  · exact hb h
  · exact (h1 '\n' (']' :: t) ht).1 rfl
  · exact (h1 ']' t ht).2 rfl

theorem NoCNB_append_last (a b : List Char) (ha : NoCNB a) (hb : NoCNB b)
    (hlast : a.getLast? ≠ some ',') (h2 : ∀ c t, b = c :: t → c ≠ ']') : NoCNB (a ++ b) := by
  intro h
  rcases SubOcc3_append ',' '\n' ']' a b h with h | h | ⟨p, hp, t, ht⟩ | ⟨p, hp, t, ht⟩
  · exact ha h
  · exact hb h
  · exact hlast (by rw [hp]; exact List.getLast?_concat p)
  · exact h2 ']' t ht rfl

theorem nl_not_mem_escapeChar (c : Char) : '\n' ∉ escapeChar c := by
  unfold escapeChar
  split_ifs with h1 h2 h3 h4 h5 h6 h7 h8
  · decide
  · decide
  · decide
  · decide
  · decide
  · decide
  · decide
  · intro hm
    have hdiv : c.toNat / 16 < 16 := by omega
    have hmod : c.toNat % 16 < 16 := by omega
    simp only [List.mem_cons, List.not_mem_nil, or_false] at hm
    rcases hm with h | h | h | h | h | h
    · exact absurd h (by decide)
    · exact absurd h (by decide)
    · exact absurd h (by decide)
    · exact absurd h (by decide)
    · revert h
      generalize hk : c.toNat / 16 = k at hdiv
      interval_cases k <;> decide
    · revert h
      generalize hk : c.toNat % 16 = k at hmod
      interval_cases k <;> decide
  · simp only [List.mem_singleton]
    exact fun hm => h3 hm.symm

theorem nl_not_mem_escapeList (s : List Char) : '\n' ∉ escapeList s := by
  induction s with
  | nil => simp [escapeList]
  | cons c t ih =>
    simp only [escapeList, List.mem_append]
    rintro (h | h)
    · exact nl_not_mem_escapeChar c h
    · exact ih h

theorem NoCNB_renderKey (k : String) : NoCNB (renderKey k) := by
  apply NoCNB_of_nl_not_mem
  simp only [renderKey, List.mem_cons, List.mem_append, List.mem_singleton]
  rintro (h | h | h)
  · exact absurd h (by decide)
  · exact nl_not_mem_escapeList k.data h
  · exact absurd h (by decide)

theorem NoCNB_renderStr (s : String) (d : Nat) : NoCNB (renderVal (.str s) d) := by
  apply NoCNB_of_nl_not_mem
  simp only [renderVal, List.mem_cons, List.mem_append, List.mem_singleton]
  rintro (h | h | h)
  · exact absurd h (by decide)
  · exact nl_not_mem_escapeList s.data h
  · exact absurd h (by decide)

theorem NoCNB_renderNum (n d : Nat) : NoCNB (renderVal (.num n) d) := by
  apply NoCNB_of_nl_not_mem
  intro hm
  have := renderNatAux_all_digits (n + 1) n '\n' hm
  exact absurd this (by decide)

theorem nl_not_mem_indentChars (e : Nat) : '\n' ∉ indentChars e := by
  intro h
  rw [indentChars] at h
  exact absurd (List.eq_of_mem_replicate h) (by decide)

/-- The bracket-closing text `'\n' ++ indent ++ close` contains no comma. -/
theorem NoCNB_closer (e : Nat) (cl : Char) (hcl : cl ≠ ',') (rest : List Char)
    (hrest : ',' ∉ rest) : NoCNB ('\n' :: (indentChars e ++ cl :: rest)) := by
  apply NoCNB_of_comma_not_mem
  simp only [List.mem_cons, List.mem_append]
  rintro (h | h | h | h)
  · exact absurd h (by decide)
  · rw [indentChars] at h
    exact absurd (List.eq_of_mem_replicate h) (by decide)
  · exact hcl h.symm
  · exact hrest h

/-- Head safety for item lists: the first character of `renderItems l d` is
an indent space or a value head — never `'\n'` or `']'`. -/
theorem renderItems_head_safe (l : List Json) (d : Nat) (h : l ≠ []) :
    ∃ c0 t0, renderItems l d = c0 :: t0 ∧ c0 ≠ '\n' ∧ c0 ≠ ']' := by
  have hmain : ∀ (x : Json) (tail : List Char),
      ∃ c0 t0, indentChars d ++ (renderVal x d ++ tail) = c0 :: t0 ∧ c0 ≠ '\n' ∧ c0 ≠ ']' := by
    intro x tail
    cases hd : indentChars d with
    | nil =>
      rcases renderVal_head_props x d with ⟨c, t, hct, hws, hbr, -, -, hnl⟩
      exact ⟨c, t ++ tail, by simp [hct], hnl, hbr⟩
    | cons i it =>
      have : i = ' ' := by
        have hmem : i ∈ indentChars d := by rw [hd]; simp
        rw [indentChars] at hmem
        exact List.eq_of_mem_replicate hmem
      subst this
      exact ⟨' ', it ++ (renderVal x d ++ tail), by simp, by decide, by decide⟩
  cases l with
  | nil => exact absurd rfl h
  | cons x xs =>
    cases xs with
    | nil =>
      rcases hmain x [] with ⟨c0, t0, hc, h1, h2⟩
      exact ⟨c0, t0, by simpa [renderItems] using hc, h1, h2⟩
    | cons y ys =>
      rcases hmain x (',' :: '\n' :: renderItems (y :: ys) d) with ⟨c0, t0, hc, h1, h2⟩
      exact ⟨c0, t0, by simpa [renderItems] using hc, h1, h2⟩

theorem renderFields_head_safe (fs : List (String × Json)) (d : Nat) (h : fs ≠ []) :
    ∃ c0 t0, renderFields fs d = c0 :: t0 ∧ c0 ≠ '\n' ∧ c0 ≠ ']' := by
  have hmain : ∀ (k : String) (tail : List Char),
      ∃ c0 t0, indentChars d ++ (renderKey k ++ tail) = c0 :: t0 ∧ c0 ≠ '\n' ∧ c0 ≠ ']' := by
    intro k tail
    cases hd : indentChars d with
    | nil =>
      exact ⟨'"', escapeList k.data ++ ['"'] ++ tail,
        by simp [renderKey, List.append_assoc], by decide, by decide⟩
    | cons i it =>
      have : i = ' ' := by
        have hmem : i ∈ indentChars d := by rw [hd]; simp
        rw [indentChars] at hmem
        exact List.eq_of_mem_replicate hmem
      subst this
      exact ⟨' ', it ++ (renderKey k ++ tail), by simp, by decide, by decide⟩
  cases fs with
  | nil => exact absurd rfl h
  | cons kv kvs =>
    rcases kv with ⟨k, v⟩
    cases kvs with
    | nil =>
      rcases hmain k (':' :: ' ' :: renderVal v d) with ⟨c0, t0, hc, h1, h2⟩
      exact ⟨c0, t0, by simpa [renderFields] using hc, h1, h2⟩
    | cons kv2 kvs2 =>
      rcases hmain k (':' :: ' ' :: (renderVal v d ++ ',' :: '\n' :: renderFields (kv2 :: kvs2) d))
        with ⟨c0, t0, hc, h1, h2⟩
      exact ⟨c0, t0, by simpa [renderFields] using hc, h1, h2⟩

/-- Last-character safety: `renderItems`/`renderFields` end with the last
value's final character — never a comma or newline. -/
theorem renderItems_last (l : List Json) (d : Nat) (h : l ≠ []) :
    ∃ a c, renderItems l d = a ++ [c] ∧ c ≠ ',' ∧ c ≠ '\n' := by
  induction l with
  | nil => exact absurd rfl h
  | cons x xs ih =>
    cases xs with
    | nil =>
      rcases renderVal_last x d with ⟨a, c, hac, h1, h2⟩
      exact ⟨indentChars d ++ a, c, by simp [renderItems, hac, List.append_assoc], h1, h2⟩
    | cons y ys =>
      rcases ih (by simp) with ⟨a, c, hac, h1, h2⟩
      refine ⟨indentChars d ++ (renderVal x d ++ ',' :: '\n' :: a), c, ?_, h1, h2⟩
      simp [renderItems, hac, List.append_assoc]

theorem renderFields_last (fs : List (String × Json)) (d : Nat) (h : fs ≠ []) :
    ∃ a c, renderFields fs d = a ++ [c] ∧ c ≠ ',' ∧ c ≠ '\n' := by
  induction fs with
  | nil => exact absurd rfl h
  | cons kv kvs ih =>
    rcases kv with ⟨k, v⟩
    cases kvs with
    | nil =>
      rcases renderVal_last v d with ⟨a, c, hac, h1, h2⟩
      exact ⟨indentChars d ++ (renderKey k ++ ':' :: ' ' :: a), c,
        by simp [renderFields, hac, List.append_assoc], h1, h2⟩
    | cons kv2 kvs2 =>
      rcases ih (by simp) with ⟨a, c, hac, h1, h2⟩
      refine ⟨indentChars d ++ (renderKey k ++ ':' :: ' '
        :: (renderVal v d ++ ',' :: '\n' :: a)), c, ?_, h1, h2⟩
      simp [renderFields, hac, List.append_assoc]

/-- No rendered JSON value (nor item/field list) contains `",\n]"`: every
newline is either preceded by an opening bracket, followed by an indent
space or a value head, or part of a closer whose segment has no comma. -/
theorem NoCNB_render :
    ∀ n : Nat,
      (∀ v : Json, Json.size v ≤ n → ∀ d, NoCNB (renderVal v d))
      ∧ (∀ l : List Json, Json.sizeL l ≤ n → ∀ d, NoCNB (renderItems l d))
      ∧ (∀ fs : List (String × Json), Json.sizeF fs ≤ n → ∀ d, NoCNB (renderFields fs d)) := by
  intro n
  induction n with
  | zero =>
    refine ⟨?_, ?_, ?_⟩
    · intro v hsz
      exact absurd hsz (by have := size_pos v; omega)
    · intro l hsz d
      cases l with
      | nil => exact NoCNB_short [] (by decide)
      | cons x xs =>
        exfalso
        have := size_pos x
        rw [Json.sizeL] at hsz
        omega
    · intro fs hsz d
      cases fs with
      | nil => exact NoCNB_short [] (by decide)
      | cons kv kvs =>
        exfalso
        rcases kv with ⟨k, v⟩
        have := size_pos v
        rw [Json.sizeF] at hsz
        omega
  | succ n ih =>
    obtain ⟨ihV, ihI, ihF⟩ := ih
    refine ⟨?_, ?_, ?_⟩
    · intro v hsz d
      cases v with
      | str s => exact NoCNB_renderStr s d
      | num m => exact NoCNB_renderNum m d
      | arr l =>
        cases l with
        | nil => exact show NoCNB ['[', ']'] from NoCNB_short _ (by decide)
        | cons x xs =>
          have hszl : Json.sizeL (x :: xs) ≤ n := by rw [Json.size] at hsz; omega
          have hIl : NoCNB (renderItems (x :: xs) (d + 1)) := ihI _ hszl (d + 1)
          have hB : NoCNB (renderItems (x :: xs) (d + 1)
              ++ '\n' :: (indentChars d ++ [']'])) := by
            rcases renderItems_last (x :: xs) (d + 1) (by simp) with ⟨a, c, hac, h1, -⟩
            apply NoCNB_append_last _ _ hIl (NoCNB_closer d ']' (by decide) [] (by simp))
            · rw [hac, List.getLast?_concat]
              simp [h1]
            · intro c' t' hct'
              injection hct' with he1
              rw [← he1]
              decide
          rcases renderItems_head_safe (x :: xs) (d + 1) (by simp) with ⟨c0, t0, hc0, hn0, hb0⟩
          show NoCNB (['[', '\n'] ++ (renderItems (x :: xs) (d + 1)
            ++ '\n' :: (indentChars d ++ [']'])))
          apply NoCNB_append_left _ _ (NoCNB_short _ (by decide)) hB
          intro c' t' h'
          rw [hc0] at h'
          simp only [List.cons_append] at h'
          injection h' with he1 he2
          exact ⟨he1 ▸ hn0, he1 ▸ hb0⟩
      | obj l =>
        cases l with
        | nil => exact show NoCNB ['{', '}'] from NoCNB_short _ (by decide)
        | cons kv kvs =>
          have hszf : Json.sizeF (kv :: kvs) ≤ n := by rw [Json.size] at hsz; omega
          have hFl : NoCNB (renderFields (kv :: kvs) (d + 1)) := ihF _ hszf (d + 1)
          have hB : NoCNB (renderFields (kv :: kvs) (d + 1)
              ++ '\n' :: (indentChars d ++ ['}'])) := by
            rcases renderFields_last (kv :: kvs) (d + 1) (by simp) with ⟨a, c, hac, h1, -⟩
            apply NoCNB_append_last _ _ hFl (NoCNB_closer d '}' (by decide) [] (by simp))
            · rw [hac, List.getLast?_concat]
              simp [h1]
            · intro c' t' hct'
              injection hct' with he1
              rw [← he1]
              decide
          rcases renderFields_head_safe (kv :: kvs) (d + 1) (by simp) with ⟨c0, t0, hc0, hn0, hb0⟩
          show NoCNB (['{', '\n'] ++ (renderFields (kv :: kvs) (d + 1)
            ++ '\n' :: (indentChars d ++ ['}'])))
          apply NoCNB_append_left _ _ (NoCNB_short _ (by decide)) hB
          intro c' t' h'
          rw [hc0] at h'
          simp only [List.cons_append] at h'
          injection h' with he1 he2
          exact ⟨he1 ▸ hn0, he1 ▸ hb0⟩
    · intro l hsz d
      cases l with
      | nil => exact NoCNB_short [] (by decide)
      | cons x xs =>
        have hszx : Json.size x ≤ n := by
          have := size_pos x
          rw [Json.sizeL] at hsz
          omega
        have hVx : NoCNB (renderVal x d) := ihV x hszx d
        rcases renderVal_head_props x d with ⟨cv, tv, hcv, -, hvr, -, -, hvn⟩
        cases xs with
        | nil =>
          show NoCNB (indentChars d ++ renderVal x d)
          apply NoCNB_append_left _ _
            (NoCNB_of_nl_not_mem _ (nl_not_mem_indentChars d)) hVx
          intro c' t' h'
          rw [hcv] at h'
          injection h' with he1 he2
          exact ⟨he1 ▸ hvn, he1 ▸ hvr⟩
        | cons y ys =>
          have hszys : Json.sizeL (y :: ys) ≤ n := by
            have := size_pos x
            rw [Json.sizeL] at hsz
            omega
          have hC : NoCNB (',' :: '\n' :: renderItems (y :: ys) d) := by
            rcases renderItems_head_safe (y :: ys) d (by simp) with ⟨c0, t0, hc0, hn0, hb0⟩
            show NoCNB ([',', '\n'] ++ renderItems (y :: ys) d)
            apply NoCNB_append_left _ _ (NoCNB_short _ (by decide)) (ihI (y :: ys) hszys d)
            intro c' t' h'
            rw [hc0] at h'
            injection h' with he1 he2
            exact ⟨he1 ▸ hn0, he1 ▸ hb0⟩
          have hB : NoCNB (renderVal x d ++ ',' :: '\n' :: renderItems (y :: ys) d) := by
            apply NoCNB_append_left _ _ hVx hC
            intro c' t' h'
            injection h' with he1
            rw [← he1]
            exact ⟨by decide, by decide⟩
          show NoCNB (indentChars d ++ (renderVal x d ++ ',' :: '\n' :: renderItems (y :: ys) d))
          apply NoCNB_append_left _ _
            (NoCNB_of_nl_not_mem _ (nl_not_mem_indentChars d)) hB
          intro c' t' h'
          rw [hcv] at h'
          simp only [List.cons_append] at h'
          injection h' with he1 he2
          exact ⟨he1 ▸ hvn, he1 ▸ hvr⟩
    · intro fs hsz d
      cases fs with
      | nil => exact NoCNB_short [] (by decide)
      | cons kv kvs =>
        rcases kv with ⟨k, v⟩
        have hszv : Json.size v ≤ n := by
          have := size_pos v
          rw [Json.sizeF] at hsz
          omega
        have hVv : NoCNB (renderVal v d) := ihV v hszv d
        rcases renderVal_head_props v d with ⟨cv, tv, hcv, -, hvr, -, -, hvn⟩
        cases kvs with
        | nil =>
          have hC : NoCNB (':' :: ' ' :: renderVal v d) := by
            show NoCNB ([':', ' '] ++ renderVal v d)
            apply NoCNB_append_left _ _ (NoCNB_short _ (by decide)) hVv
            intro c' t' h'
            rw [hcv] at h'
            injection h' with he1 he2
            exact ⟨he1 ▸ hvn, he1 ▸ hvr⟩
          have hKC : NoCNB (renderKey k ++ ':' :: ' ' :: renderVal v d) := by
            apply NoCNB_append_left _ _ (NoCNB_renderKey k) hC
            intro c' t' h'
            injection h' with he1
            rw [← he1]
            exact ⟨by decide, by decide⟩
          show NoCNB (indentChars d ++ (renderKey k ++ ':' :: ' ' :: renderVal v d))
          apply NoCNB_append_left _ _
            (NoCNB_of_nl_not_mem _ (nl_not_mem_indentChars d)) hKC
          intro c' t' h'
          rw [show renderKey k = '"' :: (escapeList k.data ++ ['"']) from rfl] at h'
          simp only [List.cons_append] at h'
          injection h' with he1 he2
          rw [← he1]
          exact ⟨by decide, by decide⟩
        | cons kv2 kvs2 =>
          have hszf2 : Json.sizeF (kv2 :: kvs2) ≤ n := by
            have := size_pos v
            rw [Json.sizeF] at hsz
            omega
          have hC : NoCNB (',' :: '\n' :: renderFields (kv2 :: kvs2) d) := by
            rcases renderFields_head_safe (kv2 :: kvs2) d (by simp) with ⟨c0, t0, hc0, hn0, hb0⟩
            show NoCNB ([',', '\n'] ++ renderFields (kv2 :: kvs2) d)
            apply NoCNB_append_left _ _ (NoCNB_short _ (by decide)) (ihF (kv2 :: kvs2) hszf2 d)
            intro c' t' h'
            rw [hc0] at h'
            injection h' with he1 he2
            exact ⟨he1 ▸ hn0, he1 ▸ hb0⟩
          have hB : NoCNB (renderVal v d ++ ',' :: '\n' :: renderFields (kv2 :: kvs2) d) := by
            apply NoCNB_append_left _ _ hVv hC
            intro c' t' h'
            injection h' with he1
            rw [← he1]
            exact ⟨by decide, by decide⟩
          have hC2 : NoCNB (':' :: ' '
              :: (renderVal v d ++ ',' :: '\n' :: renderFields (kv2 :: kvs2) d)) := by
            show NoCNB ([':', ' ']
              ++ (renderVal v d ++ ',' :: '\n' :: renderFields (kv2 :: kvs2) d))
            apply NoCNB_append_left _ _ (NoCNB_short _ (by decide)) hB
            intro c' t' h'
            rw [hcv] at h'
            simp only [List.cons_append] at h'
            injection h' with he1 he2
            exact ⟨he1 ▸ hvn, he1 ▸ hvr⟩
          have hKC : NoCNB (renderKey k ++ ':' :: ' '
              :: (renderVal v d ++ ',' :: '\n' :: renderFields (kv2 :: kvs2) d)) := by
            apply NoCNB_append_left _ _ (NoCNB_renderKey k) hC2
            intro c' t' h'
            injection h' with he1
            rw [← he1]
            exact ⟨by decide, by decide⟩
          show NoCNB (indentChars d ++ (renderKey k ++ ':' :: ' '
            :: (renderVal v d ++ ',' :: '\n' :: renderFields (kv2 :: kvs2) d)))
          apply NoCNB_append_left _ _
            (NoCNB_of_nl_not_mem _ (nl_not_mem_indentChars d)) hKC
          intro c' t' h'
          rw [show renderKey k = '"' :: (escapeList k.data ++ ['"']) from rfl] at h'
          simp only [List.cons_append] at h'
          injection h' with he1 he2
          rw [← he1]
          exact ⟨by decide, by decide⟩

theorem NoCNB_canonicalDoc (bs : List (List NewsRecord)) (h : bs ≠ []) :
    NoCNB (canonicalDoc bs) := by
  have hLne : bs.map batchJson ≠ [] := by simpa using h
  rw [canonicalDoc_layout]
  have hIl : NoCNB (renderItems (bs.map batchJson) 0) :=
    (NoCNB_render (Json.sizeL (bs.map batchJson))).2.1 (bs.map batchJson) le_rfl 0
  have hB : NoCNB (renderItems (bs.map batchJson) 0
      ++ '\n' :: (indentChars 0 ++ ']' :: [])) := by
    rcases renderItems_last (bs.map batchJson) 0 hLne with ⟨a, c, hac, h1, -⟩
    apply NoCNB_append_last _ _ hIl (NoCNB_closer 0 ']' (by decide) [] (by simp))
    · rw [hac, List.getLast?_concat]
      simp [h1]
    · intro c' t' hct'
      injection hct' with he1
      rw [← he1]
      decide
  rcases renderItems_head_safe (bs.map batchJson) 0 hLne with ⟨c0, t0, hc0, hn0, hb0⟩
  show NoCNB (['[', '\n'] ++ (renderItems (bs.map batchJson) 0
    ++ '\n' :: (indentChars 0 ++ ']' :: [])))
  apply NoCNB_append_left _ _ (NoCNB_short _ (by decide)) hB
  intro c' t' h'
  rw [hc0] at h'
  simp only [List.cons_append] at h'
  injection h' with he1 he2
  exact ⟨he1 ▸ hn0, he1 ▸ hb0⟩

/-- When the text contains no `",\n]"`, `main`'s `replace` is the
identity. -/
theorem fixTrailing_eq_of_NoCNB : ∀ s : List Char, NoCNB s → fixTrailing s = s := by
  intro s
  induction s with
  | nil => intro h; rfl
  | cons c1 rest ih =>
    intro h
    rcases rest with _ | ⟨c2, rest2⟩
    · rfl
    rcases rest2 with _ | ⟨c3, rest3⟩
    · rfl
    by_cases htrip : c1 = ',' ∧ c2 = '\n' ∧ c3 = ']'
    · exfalso
      rcases htrip with ⟨rfl, rfl, rfl⟩
      exact h ⟨[], rest3, rfl⟩
    · rw [show fixTrailing (c1 :: c2 :: c3 :: rest3)
          = c1 :: fixTrailing (c2 :: c3 :: rest3) from by simp [fixTrailing, htrip]]
      rw [ih (NoCNB_tail c1 _ h)]

/-! ### Claims C1 and C10 -/

/-- Claim C1 fails on the code: `json.dump(self.results, ...)` serializes
the whole batch list as its own JSON array between the hand-written
brackets, and `main`'s `replace(',\n]', '\n]')` never flattens anything, so
even a single-batch run finalizes to `[[record…]]` — an array containing
one sub-array — which does not parse as the flat array equal to the
batch. -/
theorem claim_C1_counterexample :
    (runSaves [[recSample]] none).map (fun c => parseJson (fixTrailing c))
      = some (some (Json.arr [batchJson [recSample]]))
    ∧ Json.arr [batchJson [recSample]] ≠ Json.arr ([recSample].map NewsRecord.toJson) := by
  constructor
  · rfl
  · intro hEq
    simp [batchJson, NewsRecord.toJson] at hEq

/-- Claim C1 (amended): a run of one or more non-empty `appendBatch` calls
followed by `finalize` persists a document that the cleanup leaves
byte-for-byte unchanged and that parses as a JSON **array of per-batch
sub-arrays**, the i-th sub-array listing exactly the i-th batch's records
in order (so the total record count equals the sum of the batch lengths,
and inter-batch and intra-batch order are preserved) — not as a flat array
of record objects. -/
theorem claim_C1_amended :
    ∀ batches : List (List NewsRecord), batches ≠ [] → (∀ b ∈ batches, b ≠ []) →
      runSaves batches none = some (canonicalDoc batches)
      ∧ fixTrailing (canonicalDoc batches) = canonicalDoc batches
      ∧ parseJson (canonicalDoc batches)
          = some (Json.arr (batches.map (fun b => Json.arr (b.map NewsRecord.toJson)))) := by
  intro batches h1 h2
  refine ⟨?_, fixTrailing_eq_of_NoCNB _ (NoCNB_canonicalDoc batches h1), ?_⟩
  · rw [runSaves_from_none, nonEmptyBatches_eq_self batches h2, if_neg h1]
  · exact parseJson_canonicalDoc batches h1

theorem claim_C1_witness :
    ([[recSample], [recSample2]] ≠ ([] : List (List NewsRecord))
      ∧ ∀ b ∈ [[recSample], [recSample2]], b ≠ [])
    ∧ (runSaves [[recSample], [recSample2]] none
        = some (canonicalDoc [[recSample], [recSample2]])
      ∧ fixTrailing (canonicalDoc [[recSample], [recSample2]])
          = canonicalDoc [[recSample], [recSample2]]
      ∧ parseJson (canonicalDoc [[recSample], [recSample2]])
          = some (Json.arr ([[recSample], [recSample2]].map
              (fun b => Json.arr (b.map NewsRecord.toJson))))) :=
  ⟨⟨by decide, by decide⟩, claim_C1_amended [[recSample], [recSample2]] (by decide) (by decide)⟩

/-- Claim C10: in a document produced by one or more non-empty
`save_results` calls the three characters `",\n]"` never occur — commas
inside the rendered JSON are always followed by an indent space, a value
head or (between batch dumps) an opening bracket, and every `"\n]"` closer
is preceded by a value's final character — so `main`'s
`content.replace(',\n]', '\n]')` leaves the content byte-for-byte
unchanged, and the document stays an array of per-batch sub-arrays. -/
theorem claim_C10 :
    ∀ batches : List (List NewsRecord), batches ≠ [] → (∀ b ∈ batches, b ≠ []) →
      runSaves batches none = some (canonicalDoc batches)
      ∧ ¬ SubOcc [',', '\n', ']'] (canonicalDoc batches)
      ∧ fixTrailing (canonicalDoc batches) = canonicalDoc batches
      ∧ parseJson (canonicalDoc batches) = some (Json.arr (batches.map batchJson)) := by
  intro batches h1 h2
  refine ⟨?_, NoCNB_canonicalDoc batches h1,
    fixTrailing_eq_of_NoCNB _ (NoCNB_canonicalDoc batches h1),
    parseJson_canonicalDoc batches h1⟩
  rw [runSaves_from_none, nonEmptyBatches_eq_self batches h2, if_neg h1]

theorem claim_C10_witness :
    ([[recSample]] ≠ ([] : List (List NewsRecord)) ∧ ∀ b ∈ [[recSample]], b ≠ [])
    ∧ (runSaves [[recSample]] none = some (canonicalDoc [[recSample]])
      ∧ ¬ SubOcc [',', '\n', ']'] (canonicalDoc [[recSample]])
      ∧ fixTrailing (canonicalDoc [[recSample]]) = canonicalDoc [[recSample]]
      ∧ parseJson (canonicalDoc [[recSample]])
          = some (Json.arr ([[recSample]].map batchJson))) :=
  ⟨⟨by decide, by decide⟩, claim_C10 [[recSample]] (by decide) (by decide)⟩
